import Mathlib

/-!
# ifgraph: recording engine and adaptive-scale renderer

A shallow embedding of `ifgraph.h`, `ifgraphd.c` (the recording daemon) and
`ifgraph.c` (the front-end), followed by theorems about them.

Conventions of the embedding:
* `uint64_t` values are naturals below `2 ^ 64`; arithmetic on them is reduced
  modulo `2 ^ 64` explicitly (`sub64`, `add64`, `mul64`).
* `int` values are integers; none of the modelled `int` computations can leave
  the 32-bit range (countdowns stay below 86400, indices below 70).
* C arrays are total functions from indices; a store is a pointwise update.
* What the daemon reads from `/sys` is an argument: a function from the
  interface number to the pair of counters read at that moment.
-/

namespace Ifgraph

/-! ## ifgraph.h -/

/-- The size of the history we record. -/
def HISTSZ : Nat := 256

/-- The mask `HISTSZ-1`. -/
def HISTMSK : Nat := HISTSZ - 1

/-- No more than 32 network devices. -/
def MAXIF : Nat := 32

/-- The number of resolutions: `RES_SC`, `RES_MN`, `RES_HR`, `RES_DY`. -/
def RESCNT : Nat := 4

/-- The shared block of one interface: `tx[RESCNT][HISTSZ]`, `rx[RESCNT][HISTSZ]`
and the write indices `wr[RESCNT]` into the circular buffers. -/
structure statistics_t where
  tx : Nat → Nat → Nat
  rx : Nat → Nat → Nat
  wr : Nat → Nat

/-! ## Machine arithmetic and array stores -/

/-- The modulus of `uint64_t`. -/
def U64 : Nat := 2 ^ 64

/-- Subtraction of `uint64_t`: `a - b` modulo `2 ^ 64`. -/
def sub64 (a b : Nat) : Nat := (a % U64 + (U64 - b % U64)) % U64

/-- Addition of `uint64_t`: `a + b` modulo `2 ^ 64`. -/
def add64 (a b : Nat) : Nat := (a + b) % U64

/-- Multiplication of `uint64_t`: `a * b` modulo `2 ^ 64`. -/
def mul64 (a b : Nat) : Nat := (a * b) % U64

/-- The store `f[i] = v` into a one-dimensional array. -/
def set1 {α : Type} (f : Nat → α) (i : Nat) (v : α) : Nat → α :=
  fun a => if a = i then v else f a

/-- The store `f[i][j] = v` into a two-dimensional array. -/
def set2 (f : Nat → Nat → Nat) (i j v : Nat) : Nat → Nat → Nat :=
  fun a b => if a = i ∧ b = j then v else f a b

/-! ## ifgraphd.c -/

/-- The table `periods[RESCNT] = { 1, 60, 60*60, 60*60*24 }`. -/
def periods (res : Nat) : Int :=
  match res with
  | 0 => 1
  | 1 => 60
  | 2 => 60 * 60
  | 3 => 60 * 60 * 24
  | _ => 0

/-- The file-scope state of the daemon: the number of analysed interfaces,
their shared blocks, the last read values `previous_rx`, `previous_tx`
(`[MAXIF][RESCNT]`) and the countdowns `ticks[RESCNT]`. -/
structure Daemon where
  numif : Nat
  statistics : Nat → statistics_t
  previous_rx : Nat → Nat → Nat
  previous_tx : Nat → Nat → Nat
  ticks : Nat → Int

/-- The body of the inner loop of `record` for interface `ifnr` and resolution
`res`, with the counters `rx`, `tx` just sampled; the second component of the
accumulator is `numrecorded`. -/
def record_res (ifnr rx tx : Nat) (a : Daemon × Int) (res : Nat) : Daemon × Int :=
  if a.1.ticks res = 0 then
    let st := a.1.statistics ifnr
    let wr := (st.wr res + 1) &&& HISTMSK
    let d_rx := sub64 rx (a.1.previous_rx ifnr res)
    let d_tx := sub64 tx (a.1.previous_tx ifnr res)
    let st1 : statistics_t :=
      { tx := set2 st.tx res wr d_tx, rx := set2 st.rx res wr d_rx, wr := set1 st.wr res wr }
    ({ a.1 with
        statistics := set1 a.1.statistics ifnr st1
        previous_rx := set2 a.1.previous_rx ifnr res rx
        previous_tx := set2 a.1.previous_tx ifnr res tx },
      a.2 + 1)
  else a

/-- The body of the outer loop of `record`: sample interface `ifnr` into the
`uint64_t` locals `rx`, `tx`, then run over all resolutions. -/
def record_if (sample : Nat → Nat × Nat) (a : Daemon × Int) (ifnr : Nat) : Daemon × Int :=
  let rx := (sample ifnr).1 % U64
  let tx := (sample ifnr).2 % U64
  (List.range RESCNT).foldl (record_res ifnr rx tx) a

/-- The body of the second loop of `record`: advance one countdown and wrap it
to 0 when it reaches the period. -/
def tick_res (ticks : Nat → Int) (res : Nat) : Nat → Int :=
  let t := ticks res + 1
  set1 ticks res (if t ≥ periods res then 0 else t)

/-- Record all samples for all interfaces for this tick; returns the new state
and `numrecorded`. -/
def record (sample : Nat → Nat × Nat) (s : Daemon) : Daemon × Int :=
  let a := (List.range s.numif).foldl (record_if sample) (s, 0)
  ({ a.1 with ticks := (List.range RESCNT).foldl tick_res a.1.ticks }, a.2)

/-- The state at program start with `numif` interfaces selected, after
`create_shared_memory_blocks` has zeroed every block: the file-scope arrays are
zero-initialised. -/
def create_shared_memory_blocks (numif : Nat) : Daemon :=
  { numif := numif
    statistics := fun _ => { tx := fun _ _ => 0, rx := fun _ _ => 0, wr := fun _ => 0 }
    previous_rx := fun _ _ => 0
    previous_tx := fun _ _ => 0
    ticks := fun _ => 0 }

/-- The body of the loop of `prepare_service` for interface `i`: read the
initial counts into resolution 0 and copy them to the other resolutions. -/
def prepare_if (sample : Nat → Nat × Nat) (s : Daemon) (i : Nat) : Daemon :=
  let s0 : Daemon :=
    { s with
      previous_rx := set2 s.previous_rx i 0 ((sample i).1 % U64)
      previous_tx := set2 s.previous_tx i 0 ((sample i).2 % U64) }
  (List.range' 1 (RESCNT - 1)).foldl
    (fun (t : Daemon) (r : Nat) =>
      { t with
        previous_rx := set2 t.previous_rx i r (t.previous_rx i 0)
        previous_tx := set2 t.previous_tx i r (t.previous_tx i 0) })
    s0

/-- Read the initial counts for every interface. -/
def prepare_service (sample : Nat → Nat × Nat) (s : Daemon) : Daemon :=
  (List.range s.numif).foldl (prepare_if sample) s

/-- The state after `n` iterations of the loop of `service`, where
`readings k` is what `sample` reads during iteration `k` (counting from 0). -/
def service (readings : Nat → Nat → Nat × Nat) (s : Daemon) : Nat → Daemon
  | 0 => s
  | n + 1 => (record (readings n) (service readings s n)).1

/-- The daemon from start-up to the `n`-th iteration of `service`:
`create_shared_memory_blocks`, `prepare_service` on the initial sample `seed`,
then `n` calls of `record`. -/
def daemon (numif : Nat) (seed : Nat → Nat × Nat) (readings : Nat → Nat → Nat × Nat)
    (n : Nat) : Daemon :=
  service readings (prepare_service seed (create_shared_memory_blocks numif)) n

/-! ## Vocabulary for statements about the daemon -/

/-- What the daemon holds for interface `i` at resolution `r`: the last read
values, the write index and the two circular buffers. -/
structure Chan where
  prx : Nat
  ptx : Nat
  wr : Nat
  rx : Nat → Nat
  tx : Nat → Nat

/-- The channel of interface `i` at resolution `r` in a daemon state. -/
def chan (s : Daemon) (i r : Nat) : Chan :=
  { prx := s.previous_rx i r
    ptx := s.previous_tx i r
    wr := (s.statistics i).wr r
    rx := (s.statistics i).rx r
    tx := (s.statistics i).tx r }

/-- The effect of one recording with the sampled counters `rx`, `tx` on a channel. -/
def chan_step (rx tx : Nat) (c : Chan) : Chan :=
  { prx := rx
    ptx := tx
    wr := (c.wr + 1) % 256
    rx := set1 c.rx ((c.wr + 1) % 256) (sub64 rx c.prx)
    tx := set1 c.tx ((c.wr + 1) % 256) (sub64 tx c.ptx) }

/-- The countdown of resolution `res` after the second loop of `record`. -/
def tick_next (t : Int) (res : Nat) : Int :=
  if t + 1 ≥ periods res then 0 else t + 1

/-- A channel whose last read values have been overwritten. -/
def chan_seed (rx tx : Nat) (c : Chan) : Chan :=
  { c with prx := rx, ptx := tx }

/-- The period of a resolution as a natural number. -/
def periodsN (res : Nat) : Nat := (periods res).toNat

/-- The number of calls among the first `n` calls of `record` (calls `0 .. n-1`)
whose index is a multiple of `p`. -/
def fired (p n : Nat) : Nat := (n + p - 1) / p

/-- The counters of interface `i` at the `j`-th recording of a resolution of
period `p`: recording `j ≥ 1` happens during call `(j-1) * p`; for `j = 0` this
is the initial sample taken by `prepare_service`. -/
def reading_at (seed : Nat → Nat × Nat) (readings : Nat → Nat → Nat × Nat) (i p j : Nat) :
    Nat × Nat :=
  if j = 0 then seed i else readings ((j - 1) * p) i

/-- The received-bytes delta of the `j`-th recording (`j ≥ 1`) of a resolution of
period `p`: counter at that recording minus counter at the previous one, as
`uint64_t`. -/
def delta_rx (seed : Nat → Nat × Nat) (readings : Nat → Nat → Nat × Nat) (i p j : Nat) : Nat :=
  sub64 (reading_at seed readings i p j).1 (reading_at seed readings i p (j - 1)).1

/-- The transmitted-bytes delta of the `j`-th recording (`j ≥ 1`). -/
def delta_tx (seed : Nat → Nat × Nat) (readings : Nat → Nat → Nat × Nat) (i p j : Nat) : Nat :=
  sub64 (reading_at seed readings i p j).2 (reading_at seed readings i p (j - 1)).2

/-- The periods that occur. -/
def IsPeriod (p : Nat) : Prop := p = 1 ∨ p = 60 ∨ p = 3600 ∨ p = 86400

/-- The entry of the received-bytes ring of interface `i`, resolution `r`, at the
write index: the most recently written sample. -/
def newest_rx (s : Daemon) (i r : Nat) : Nat :=
  (s.statistics i).rx r ((s.statistics i).wr r)

/-- The entry of the transmitted-bytes ring at the write index. -/
def newest_tx (s : Daemon) (i r : Nat) : Nat :=
  (s.statistics i).tx r ((s.statistics i).wr r)

/-- The state used to exercise `record`: one interface whose previous counters
are `(1000, 18446744073709551615)` at every resolution, all countdowns 0. -/
def demo_state : Daemon :=
  { create_shared_memory_blocks 1 with
    previous_rx := fun _ _ => 1000
    previous_tx := fun _ _ => 18446744073709551615 }

/-- The delta that recording number `j ≥ 1` of resolution `r` stored for
interface `i` (received bytes), read at the write index right after the call of
`record` that made it (call `(j-1) * periods[r]`). -/
def recorded_rx (numif : Nat) (seed : Nat → Nat × Nat) (readings : Nat → Nat → Nat × Nat)
    (i r j : Nat) : Nat :=
  newest_rx (daemon numif seed readings ((j - 1) * periodsN r + 1)) i r

/-- The transmitted-bytes delta stored by recording number `j ≥ 1`. -/
def recorded_tx (numif : Nat) (seed : Nat → Nat × Nat) (readings : Nat → Nat → Nat × Nat)
    (i r j : Nat) : Nat :=
  newest_tx (daemon numif seed readings ((j - 1) * periodsN r + 1)) i r

/-- The counters used to exercise the daemon: one interface whose initial
sample is `(1000, 0)` and which then receives 500 bytes per second; the first
call of `record` follows the initial sample at once and reads the same value. -/
def ramp_seed : Nat → Nat × Nat := fun _ => (1000, 0)

/-- The readings of the calls of `record` for `ramp_seed`: call `k` reads
`1000 + 500 * k` received bytes. -/
def ramp_readings : Nat → Nat → Nat × Nat := fun k _ => (1000 + 500 * k, 0)

/-! ## ifgraph.c: the axis scales -/

/-- The table `scalebasis[]`. -/
def scalebasis : List Nat := [15, 20, 30, 40, 60, 80, 100]

/-- Supports 100Gbps scale. -/
def ORDERS_OF_MAGNITUDE_IN_SCALING : Nat := 10

/-- The macro `BASISLEN`: the number of entries of `scalebasis`. -/
def BASISLEN : Nat := scalebasis.length

/-- The macro `NUMAXISSCALES`. -/
def NUMAXISSCALES : Nat := ORDERS_OF_MAGNITUDE_IN_SCALING * BASISLEN

/-- The variables of the loops of `prepare_drawing` that fill `axisscales`. -/
structure ScaleLoop where
  axisscales : Nat → Nat
  writer : Nat
  mult : Nat

/-- The body of the inner loop of `prepare_drawing`:
`axisscales[writer++] = mult * scalebasis[i]`. -/
def prepare_inner (s : ScaleLoop) (i : Nat) : ScaleLoop :=
  { s with
    axisscales := set1 s.axisscales s.writer (mul64 s.mult (scalebasis.getD i 0))
    writer := s.writer + 1 }

/-- The body of the outer loop of `prepare_drawing`: one order of magnitude,
then `mult *= 10`. -/
def prepare_outer (s : ScaleLoop) (_o : Nat) : ScaleLoop :=
  let t := (List.range BASISLEN).foldl prepare_inner s
  { t with mult := mul64 t.mult 10 }

/-- The loops of `prepare_drawing` that set up the scaling of the Y-axis, run on
the zero-initialised table. -/
def prepare_drawing : ScaleLoop :=
  (List.range ORDERS_OF_MAGNITUDE_IN_SCALING).foldl prepare_outer
    { axisscales := fun _ => 0, writer := 0, mult := 1 }

/-- The table `axisscales[NUMAXISSCALES]` as `prepare_drawing` leaves it. -/
def axisscales : Nat → Nat := prepare_drawing.axisscales

/-- The array `y_scale_indices[RESCNT]` as `prepare_drawing` leaves it. -/
def initial_y_scale_indices : Nat → Int := fun r => if r < RESCNT then 15 else 0

/-! ## ifgraph.c: single-precision arithmetic

The expressions of `draw_range` are evaluated in `float`. A `float` value is
modelled by the rational number it denotes, and every operation yields the
exact result rounded to the nearest number with a 24-bit significand, ties to
even (`f32`). The exponent range of the format is not modelled: the operands of
`draw_range` come from 64-bit integers, so every intermediate value is 0 or has
a magnitude between `2^-63` and `2^94`, inside the normal range. -/

/-- Round to the nearest integer, ties to even. -/
def rne (q : ℚ) : Int :=
  if q - ⌊q⌋ < 1 / 2 then ⌊q⌋
  else if 1 / 2 < q - ⌊q⌋ then ⌊q⌋ + 1
  else if ⌊q⌋ % 2 = 0 then ⌊q⌋ else ⌊q⌋ + 1

/-- Round to the nearest number of the form `m * 2^e` with `|m| < 2^24`, ties
to even: the value of a `float` operation whose exact result is `q`. -/
def f32 (q : ℚ) : ℚ :=
  if q = 0 then 0
  else (rne (q / 2 ^ (Int.log 2 |q| - 23)) : ℚ) * 2 ^ (Int.log 2 |q| - 23)

/-- The conversion `(int64_t)` of a `float`: truncation toward zero; undefined
(`none`) when the truncated value is not an `int64_t`. -/
def ftoi (q : ℚ) : Option Int :=
  if -(2 : Int) ^ 63 ≤ (if 0 ≤ q then ⌊q⌋ else ⌈q⌉) ∧ (if 0 ≤ q then ⌊q⌋ else ⌈q⌉) < (2 : Int) ^ 63
  then some (if 0 ≤ q then ⌊q⌋ else ⌈q⌉)
  else none

/-- The conversion of a `uint64_t` to `int64_t`. -/
def to_i64 (n : Nat) : Int :=
  if n % U64 < 2 ^ 63 then ((n % U64 : Nat) : Int) else ((n % U64 : Nat) : Int) - (2 : Int) ^ 64

/-- The conversion of an `int` to `uint64_t`. -/
def u64_of_int (z : Int) : Nat := (z % (2 : Int) ^ 64).toNat

/-! ## ifgraph.c: drawing -/

/-- The `float` expression `v * 1.0f * height / maxbw + 0.5f` of `draw_range`,
for the `int64_t` operands `v`, `height`, `maxbw`: three conversions to `float`
and, from left to right, two products, a quotient and a sum, each rounded. -/
def pixel_len (v height maxbw : Int) : ℚ :=
  f32 (f32 (f32 (f32 (f32 (v : ℚ) * 1) * f32 (height : ℚ)) / f32 (maxbw : ℚ)) + 1 / 2)

/-- The return value of `draw_range`: whether the upper pixel length `l1`
reaches `height-1`. The result is `none` when an assertion fails, when `maxbw`
is 0 (the quotient is then not a number) or when a conversion to `int64_t` is
undefined (`to_` is the parameter `to`). The pixels written to the image `im`, the only use of `histidx`,
`colour` and of the lower length `l0`, are not part of the model. -/
def draw_range (maxbw fr to_ y0 y1 : Int) : Option Int :=
  if fr ≥ 0 ∧ to_ ≥ 0 ∧ to_ ≥ fr ∧ maxbw ≠ 0 then
    match ftoi (pixel_len fr (y1 - y0) maxbw), ftoi (pixel_len to_ (y1 - y0) maxbw) with
    | some _, some l1 => some (if l1 ≥ (y1 - y0) - 1 then 1 else 0)
    | _, _ => none
  else none

/-- What the front-end reads while it draws one frame: the number of attached
interfaces, their shared blocks, and the width and height `imw`, `imh` of the
image. -/
structure Frame where
  numif : Nat
  statistics : Nat → statistics_t
  imw : Int
  imh : Int

/-- The index `(statistics[i]->wr[res] - x) & HISTMSK` of the history entry drawn
in column `x`. -/
def hist_index (wr : Nat) (x : Int) : Nat :=
  (Int.land ((wr : Int) - x) (HISTMSK : Int)).toNat

/-- The body of the loop over the interfaces in `draw_samples`, for column `x`.
The accumulator is `(overflow, underflow, cumul)`. -/
def draw_if (f : Frame) (res maxval : Nat) (y0 y1 : Int) (x : Nat) (a : Int × Int × Nat)
    (i : Nat) : Option (Int × Int × Nat) :=
  let idx := hist_index ((f.statistics i).wr res) x
  let rx := (f.statistics i).rx res idx % U64
  let tx := (f.statistics i).tx res idx % U64
  let cumul := a.2.2
  match draw_range (to_i64 maxval) (to_i64 (add64 cumul 0)) (to_i64 (add64 cumul tx)) y0 y1,
      draw_range (to_i64 maxval) (to_i64 (add64 cumul tx))
        (to_i64 (add64 (add64 cumul tx) rx)) y0 y1 with
  | some o1, some o2 =>
    some (a.1 + o1 + o2,
      if add64 cumul (add64 rx tx) > maxval / 2 then 0 else a.2.1,
      add64 cumul (add64 rx tx))
  | _, _ => none

/-- The body of the loop over the columns in `draw_samples`. The accumulator is
`(overflow, underflow)`; `cumul` starts at 0 in every column. -/
def draw_column (f : Frame) (res maxval : Nat) (y0 y1 : Int) (a : Int × Int) (x : Nat) :
    Option (Int × Int) :=
  match (List.range f.numif).foldlM (draw_if f res maxval y0 y1 x) (a.1, a.2, 0) with
  | some r => some (r.1, r.2.1)
  | none => none

/-- The loops of `draw_samples`: the flags `(overflow, underflow)` after all
`imw-2` columns, starting from `overflow = 0`, `underflow = 1`. -/
def draw_scan (f : Frame) (res maxval : Nat) (y0 y1 : Int) : Option (Int × Int) :=
  (List.range (f.imw - 2).toNat).foldlM (draw_column f res maxval y0 y1) (0, 1)

/-- The adjustment of the scale index at the end of `draw_samples`. -/
def scale_step (overflow underflow idx : Int) : Int :=
  if overflow ≠ 0 then
    if idx < (NUMAXISSCALES : Int) - 1 then idx + 1 else idx
  else if underflow ≠ 0 then
    if idx > 0 then idx - 1 else idx
  else idx

/-- The value `maxval = maxbw * periods[res]` of `draw_samples` for the scale
index `idx`. -/
def scale_max (idx res : Nat) : Nat :=
  mul64 (axisscales idx) (u64_of_int (periods res))

/-- The function `draw_samples` for resolution `res` on the rows `y0 .. y1`:
the new `y_scale_indices`, or `none` when an assertion fails, the scale index
is outside the table or `draw_range` is undefined. The background bands
written to the image are not part of the model. -/
def draw_samples (f : Frame) (y_scale_indices : Nat → Int) (res : Nat) (y0 y1 : Int) :
    Option (Nat → Int) :=
  if y0 ≤ f.imh ∧ y1 ≤ f.imh then
    if 0 ≤ y_scale_indices res ∧ y_scale_indices res < (NUMAXISSCALES : Int) then
      match draw_scan f res (scale_max (y_scale_indices res).toNat res) y0 y1 with
      | some (overflow, underflow) =>
        some (set1 y_scale_indices res (scale_step overflow underflow (y_scale_indices res)))
      | none => none
    else none
  else none

/-! ## ifgraph.c: start-up -/

/-- One result of `readdir`: an error (null with `errno` set) or an entry with
the bit `d_type & DT_LNK` and its name. The end of the directory is the end of
the list of results. -/
inductive ReadResult where
  | error : ReadResult
  | entry (lnk : Bool) (name : String) : ReadResult

/-- What `main` of the front-end observes at start-up. -/
structure Env where
  argc : Int
  opendir_ok : Bool
  readdir : List ReadResult
  shm_open : String → Int
  mmap_ok : String → Bool

/-- The loop of `main` that determines the candidate network interfaces: the
exit status 2 on a `readdir` error, else the candidates. -/
def read_candidates : List ReadResult → List String → Except Int (List String)
  | [], cands => .ok cands
  | .error :: _, _ => .error 2
  | .entry lnk name :: rest, cands =>
    if (if lnk then cands ++ [name] else cands).length < MAXIF then
      read_candidates rest (if lnk then cands ++ [name] else cands)
    else .ok (if lnk then cands ++ [name] else cands)

/-- The loop of `main` that keeps the candidates with a readable, mapped shared
memory block. -/
def attach (env : Env) (cands : List String) : List String :=
  cands.filter (fun nm => decide (env.shm_open nm > 0) && env.mmap_ok nm)

/-- The start-up of `main` of the front-end: `some status` when it exits with
that status before drawing, `none` when it goes on to `prepare_drawing`. -/
def main (env : Env) : Option Int :=
  if env.argc ≠ 1 then some 1
  else if env.opendir_ok = false then some 1
  else
    match read_candidates env.readdir [] with
    | .error status => some status
    | .ok cands => if (attach env cands).length = 0 then some 3 else none

/-! ## Vocabulary for statements about the drawing -/

/-- The received-bytes entry that `draw_samples` reads for interface `i` in
column `x`. -/
def sample_rx (f : Frame) (res x i : Nat) : Nat :=
  (f.statistics i).rx res (hist_index ((f.statistics i).wr res) (x : Int)) % U64

/-- The transmitted-bytes entry that `draw_samples` reads for interface `i` in
column `x`. -/
def sample_tx (f : Frame) (res x i : Nat) : Nat :=
  (f.statistics i).tx res (hist_index ((f.statistics i).wr res) (x : Int)) % U64

/-- The running stacked total of column `x` after the first `k` interfaces, as
the `uint64_t` variable `cumul` holds it. -/
def running_total (f : Frame) (res x : Nat) : Nat → Nat
  | 0 => 0
  | k + 1 => add64 (running_total f res x k) (add64 (sample_rx f res x k) (sample_tx f res x k))

/-- The top of the transmitted segment of interface `i` in column `x`: the
running total before interface `i` plus its transmitted bytes. -/
def segment_tx (f : Frame) (res x i : Nat) : Nat :=
  add64 (running_total f res x i) (sample_tx f res x i)

/-- The top of the received segment of interface `i` in column `x`. -/
def segment_rx (f : Frame) (res x i : Nat) : Nat :=
  add64 (segment_tx f res x i) (sample_rx f res x i)

/-- The stacked total of column `x`: the exact sum of `tx + rx` over all
interfaces. -/
def column_total (f : Frame) (res x : Nat) : Nat :=
  ∑ i in Finset.range f.numif, (sample_tx f res x i + sample_rx f res x i)

/-- A segment whose top is the stacked value `total` reaches the top pixel row
of the panel: its rounded pixel length `l1` is at least `height - 1`. -/
def reaches_top (maxval total : Nat) (y0 y1 : Int) : Prop :=
  ∃ l1, ftoi (pixel_len (to_i64 total) (y1 - y0) (to_i64 maxval)) = some l1 ∧ l1 ≥ (y1 - y0) - 1

/-- The number of columns that `draw_samples` draws. -/
def columns (f : Frame) : Nat := (f.imw - 2).toNat

/-- A sufficient condition for `draw_samples` to run through on the rows
`y0 .. y1` with scale maximum `maxval`: the panel is not upside down, `maxval`
is a positive `int64_t`, and every column total is an `int64_t` whose pixel
length `total * height / maxval` stays below `2^62`. -/
def Drawable (f : Frame) (res maxval : Nat) (y0 y1 : Int) : Prop :=
  y0 ≤ y1 ∧ 0 < maxval ∧ maxval < 2 ^ 63 ∧
  ∀ x, x < columns f →
    column_total f res x < 2 ^ 63 ∧
    (column_total f res x : Int) * (y1 - y0) ≤ 2 ^ 62 * (maxval : Int)

/-! ## Concrete inputs -/

/-- An invocation of the front-end with one argument. -/
def env_with_argument : Env :=
  { argc := 2, opendir_ok := true, readdir := [], shm_open := fun _ => 3, mmap_ok := fun _ => true }

/-- An invocation of the front-end without arguments in which `/sys/class/net`
cannot be opened. -/
def env_without_directory : Env :=
  { argc := 1, opendir_ok := false, readdir := [], shm_open := fun _ => 3,
    mmap_ok := fun _ => true }

/-- An invocation of the front-end without arguments in which the directory
lists one interface that has no shared memory block. -/
def env_without_daemon : Env :=
  { argc := 1, opendir_ok := true, readdir := [ReadResult.entry true "eth0"],
    shm_open := fun _ => -1, mmap_ok := fun _ => false }


/-- A frame with one interface whose history holds 90 transmitted and 0 received
bytes in every slot, drawn one column wide (`imw = 3`) on an image of 20 rows. -/
def demo_frame : Frame :=
  { numif := 1
    statistics := fun _ => { tx := fun _ _ => 90, rx := fun _ _ => 0, wr := fun _ => 0 }
    imw := 3
    imh := 20 }

/-- The frame `demo_frame` with an empty history: all entries 0. -/
def quiet_frame : Frame :=
  { numif := 1
    statistics := fun _ => { tx := fun _ _ => 0, rx := fun _ _ => 0, wr := fun _ => 0 }
    imw := 3
    imh := 20 }

/-! ## Lemmas and theorems -/

theorem land_HISTMSK (n : Nat) : n &&& HISTMSK = n % 256 :=
  Nat.and_pow_two_sub_one_eq_mod n 8

theorem set2_row_same (f : Nat → Nat → Nat) (i j v : Nat) :
    set2 f i j v i = set1 (f i) j v := by
  funext b
  simp [set2, set1]

theorem set2_row_other (f : Nat → Nat → Nat) (i j v a : Nat) (h : a ≠ i) :
    set2 f i j v a = f a := by
  funext b
  simp [set2, h]

theorem record_res_ticks (ifnr rx tx : Nat) (a : Daemon × Int) (res : Nat) :
    (record_res ifnr rx tx a res).1.ticks = a.1.ticks := by
  unfold record_res
  split <;> rfl

theorem record_res_numif (ifnr rx tx : Nat) (a : Daemon × Int) (res : Nat) :
    (record_res ifnr rx tx a res).1.numif = a.1.numif := by
  unfold record_res
  split <;> rfl

theorem record_res_chan (ifnr rx tx : Nat) (a : Daemon × Int) (res i r : Nat) :
    chan (record_res ifnr rx tx a res).1 i r =
      if i = ifnr ∧ r = res ∧ a.1.ticks res = 0 then chan_step rx tx (chan a.1 ifnr res)
      else chan a.1 i r := by
  unfold record_res
  by_cases ht : a.1.ticks res = 0
  · simp only [ht, if_true, and_true]
    by_cases hi : i = ifnr
    · subst hi
      by_cases hr : r = res
      · subst hr
        simp [chan, chan_step, set1, set2_row_same, land_HISTMSK]
      · simp [chan, chan_step, set1, set2, hr, set2_row_other]
    · simp [chan, chan_step, set1, set2, hi]
  · simp [ht]

theorem foldl_res_ticks (ifnr rx tx : Nat) (l : List Nat) (a : Daemon × Int) :
    (l.foldl (record_res ifnr rx tx) a).1.ticks = a.1.ticks := by
  induction l generalizing a with
  | nil => rfl
  | cons x xs ih => rw [List.foldl_cons, ih, record_res_ticks]

theorem foldl_res_numif (ifnr rx tx : Nat) (l : List Nat) (a : Daemon × Int) :
    (l.foldl (record_res ifnr rx tx) a).1.numif = a.1.numif := by
  induction l generalizing a with
  | nil => rfl
  | cons x xs ih => rw [List.foldl_cons, ih, record_res_numif]

theorem foldl_res_chan (ifnr rx tx : Nat) (l : List Nat) (hl : l.Nodup) (a : Daemon × Int)
    (i r : Nat) :
    chan (l.foldl (record_res ifnr rx tx) a).1 i r =
      if i = ifnr ∧ r ∈ l ∧ a.1.ticks r = 0 then chan_step rx tx (chan a.1 ifnr r)
      else chan a.1 i r := by
  induction l generalizing a with
  | nil => simp
  | cons x xs ih =>
    rw [List.nodup_cons] at hl
    rw [List.foldl_cons, ih hl.2, record_res_ticks, record_res_chan, record_res_chan]
    by_cases hi : i = ifnr
    · subst hi
      by_cases hx : r = x
      · subst hx
        simp [hl.1]
      · have hx2 : ¬ x = r := fun h => hx h.symm
        simp [hx, hx2]
    · simp [hi]

theorem record_if_ticks (sample : Nat → Nat × Nat) (a : Daemon × Int) (ifnr : Nat) :
    (record_if sample a ifnr).1.ticks = a.1.ticks :=
  foldl_res_ticks _ _ _ _ _

theorem record_if_numif (sample : Nat → Nat × Nat) (a : Daemon × Int) (ifnr : Nat) :
    (record_if sample a ifnr).1.numif = a.1.numif :=
  foldl_res_numif _ _ _ _ _

theorem record_if_chan (sample : Nat → Nat × Nat) (a : Daemon × Int) (ifnr i r : Nat) :
    chan (record_if sample a ifnr).1 i r =
      if i = ifnr ∧ r < RESCNT ∧ a.1.ticks r = 0 then
        chan_step ((sample ifnr).1 % U64) ((sample ifnr).2 % U64) (chan a.1 ifnr r)
      else chan a.1 i r := by
  unfold record_if
  rw [foldl_res_chan _ _ _ _ (List.nodup_range _)]
  simp only [List.mem_range]

theorem foldl_if_ticks (sample : Nat → Nat × Nat) (l : List Nat) (a : Daemon × Int) :
    (l.foldl (record_if sample) a).1.ticks = a.1.ticks := by
  induction l generalizing a with
  | nil => rfl
  | cons x xs ih => rw [List.foldl_cons, ih, record_if_ticks]

theorem foldl_if_numif (sample : Nat → Nat × Nat) (l : List Nat) (a : Daemon × Int) :
    (l.foldl (record_if sample) a).1.numif = a.1.numif := by
  induction l generalizing a with
  | nil => rfl
  | cons x xs ih => rw [List.foldl_cons, ih, record_if_numif]

theorem foldl_if_chan (sample : Nat → Nat × Nat) (l : List Nat) (hl : l.Nodup)
    (a : Daemon × Int) (i r : Nat) :
    chan (l.foldl (record_if sample) a).1 i r =
      if i ∈ l ∧ r < RESCNT ∧ a.1.ticks r = 0 then
        chan_step ((sample i).1 % U64) ((sample i).2 % U64) (chan a.1 i r)
      else chan a.1 i r := by
  induction l generalizing a with
  | nil => simp
  | cons x xs ih =>
    rw [List.nodup_cons] at hl
    rw [List.foldl_cons, ih hl.2, record_if_ticks, record_if_chan]
    by_cases hx : i = x
    · subst hx
      simp [hl.1]
    · simp [hx]

theorem foldl_tick_res (l : List Nat) (hl : l.Nodup) (ticks : Nat → Int) (r : Nat) :
    l.foldl tick_res ticks r = if r ∈ l then tick_next (ticks r) r else ticks r := by
  induction l generalizing ticks with
  | nil => simp
  | cons x xs ih =>
    rw [List.nodup_cons] at hl
    rw [List.foldl_cons, ih hl.2]
    by_cases hx : r = x
    · subst hx
      simp [hl.1, tick_res, set1, tick_next]
    · simp [hx, tick_res, set1]

theorem record_numif (sample : Nat → Nat × Nat) (s : Daemon) :
    (record sample s).1.numif = s.numif := by
  unfold record
  exact foldl_if_numif _ _ _

theorem record_ticks (sample : Nat → Nat × Nat) (s : Daemon) (r : Nat) :
    (record sample s).1.ticks r = if r < RESCNT then tick_next (s.ticks r) r else s.ticks r := by
  unfold record
  simp only
  rw [foldl_tick_res _ (List.nodup_range _), foldl_if_ticks]
  simp only [List.mem_range]

theorem record_chan (sample : Nat → Nat × Nat) (s : Daemon) (i r : Nat) :
    chan (record sample s).1 i r =
      if i < s.numif ∧ r < RESCNT ∧ s.ticks r = 0 then
        chan_step ((sample i).1 % U64) ((sample i).2 % U64) (chan s i r)
      else chan s i r := by
  have h := foldl_if_chan sample (List.range s.numif) (List.nodup_range _) (s, 0) i r
  simp only [List.mem_range] at h
  rw [← h]
  rfl

theorem prepare_if_numif (sample : Nat → Nat × Nat) (s : Daemon) (i : Nat) :
    (prepare_if sample s i).numif = s.numif := rfl

theorem prepare_if_ticks (sample : Nat → Nat × Nat) (s : Daemon) (i : Nat) :
    (prepare_if sample s i).ticks = s.ticks := rfl

theorem prepare_if_chan (sample : Nat → Nat × Nat) (s : Daemon) (i j r : Nat) :
    chan (prepare_if sample s i) j r =
      if j = i ∧ r < RESCNT then chan_seed ((sample i).1 % U64) ((sample i).2 % U64) (chan s i r)
      else chan s j r := by
  by_cases hj : j = i
  · subst hj
    rcases Nat.lt_or_ge r 4 with hr | hr
    · interval_cases r <;>
        simp [prepare_if, RESCNT, List.range', chan, chan_seed, set2]
    · have h1 : r ≠ 0 := by omega
      have h2 : r ≠ 1 := by omega
      have h3 : r ≠ 2 := by omega
      have h4 : r ≠ 3 := by omega
      have h5 : ¬ r < 4 := by omega
      simp [prepare_if, RESCNT, List.range', chan, chan_seed, set2, h1, h2, h3, h4, h5]
  · simp [prepare_if, RESCNT, List.range', chan, chan_seed, set2, hj]

theorem foldl_prepare_numif (sample : Nat → Nat × Nat) (l : List Nat) (s : Daemon) :
    (l.foldl (prepare_if sample) s).numif = s.numif := by
  induction l generalizing s with
  | nil => rfl
  | cons x xs ih => rw [List.foldl_cons, ih, prepare_if_numif]

theorem foldl_prepare_ticks (sample : Nat → Nat × Nat) (l : List Nat) (s : Daemon) :
    (l.foldl (prepare_if sample) s).ticks = s.ticks := by
  induction l generalizing s with
  | nil => rfl
  | cons x xs ih => rw [List.foldl_cons, ih, prepare_if_ticks]

theorem foldl_prepare_chan (sample : Nat → Nat × Nat) (l : List Nat) (hl : l.Nodup)
    (s : Daemon) (j r : Nat) :
    chan (l.foldl (prepare_if sample) s) j r =
      if j ∈ l ∧ r < RESCNT then chan_seed ((sample j).1 % U64) ((sample j).2 % U64) (chan s j r)
      else chan s j r := by
  induction l generalizing s with
  | nil => simp
  | cons x xs ih =>
    rw [List.nodup_cons] at hl
    rw [List.foldl_cons, ih hl.2, prepare_if_chan]
    by_cases hx : j = x
    · subst hx
      simp [hl.1]
    · simp [hx]

theorem prepare_service_chan (sample : Nat → Nat × Nat) (s : Daemon) (j r : Nat) :
    chan (prepare_service sample s) j r =
      if j < s.numif ∧ r < RESCNT then
        chan_seed ((sample j).1 % U64) ((sample j).2 % U64) (chan s j r)
      else chan s j r := by
  unfold prepare_service
  rw [foldl_prepare_chan _ _ (List.nodup_range _)]
  simp only [List.mem_range]

theorem periods_eq (res : Nat) : periods res = (periodsN res : Int) := by
  unfold periodsN periods
  split <;> simp

theorem daemon_numif (numif : Nat) (seed : Nat → Nat × Nat) (readings : Nat → Nat → Nat × Nat)
    (n : Nat) : (daemon numif seed readings n).numif = numif := by
  induction n with
  | zero =>
    show (prepare_service seed (create_shared_memory_blocks numif)).numif = numif
    unfold prepare_service
    rw [foldl_prepare_numif]
    rfl
  | succ n ih =>
    show (record (readings n) (daemon numif seed readings n)).1.numif = numif
    rw [record_numif, ih]

theorem daemon_ticks (numif : Nat) (seed : Nat → Nat × Nat) (readings : Nat → Nat → Nat × Nat)
    (n r : Nat) (hr : r < RESCNT) :
    (daemon numif seed readings n).ticks r = ((n % periodsN r : Nat) : Int) := by
  induction n with
  | zero =>
    show (prepare_service seed (create_shared_memory_blocks numif)).ticks r = _
    unfold prepare_service
    rw [foldl_prepare_ticks]
    simp [create_shared_memory_blocks]
  | succ n ih =>
    show (record (readings n) (daemon numif seed readings n)).1.ticks r = _
    rw [record_ticks, if_pos hr, ih]
    unfold RESCNT at hr
    interval_cases r <;> simp [tick_next, periodsN, periods] <;> omega

theorem daemon_chan_zero (numif : Nat) (seed : Nat → Nat × Nat)
    (readings : Nat → Nat → Nat × Nat) (i r : Nat) (hi : i < numif) (hr : r < RESCNT) :
    chan (daemon numif seed readings 0) i r =
      { prx := (seed i).1 % U64, ptx := (seed i).2 % U64, wr := 0,
        rx := fun _ => 0, tx := fun _ => 0 } := by
  show chan (prepare_service seed (create_shared_memory_blocks numif)) i r = _
  rw [prepare_service_chan]
  have : i < (create_shared_memory_blocks numif).numif := hi
  rw [if_pos ⟨this, hr⟩]
  rfl

theorem daemon_chan_succ (numif : Nat) (seed : Nat → Nat × Nat)
    (readings : Nat → Nat → Nat × Nat) (n i r : Nat) (hi : i < numif) (hr : r < RESCNT) :
    chan (daemon numif seed readings (n + 1)) i r =
      if n % periodsN r = 0 then
        chan_step ((readings n i).1 % U64) ((readings n i).2 % U64)
          (chan (daemon numif seed readings n) i r)
      else chan (daemon numif seed readings n) i r := by
  show chan (record (readings n) (daemon numif seed readings n)).1 i r = _
  rw [record_chan, daemon_numif, daemon_ticks _ _ _ _ _ hr]
  by_cases h : n % periodsN r = 0
  · rw [if_pos h, if_pos ⟨hi, hr, by exact_mod_cast h⟩]
  · have h2 : ¬ ((n % periodsN r : Nat) : Int) = 0 := by exact_mod_cast h
    rw [if_neg h, if_neg (fun hh => h2 hh.2.2)]

theorem sub64_mod_left (a b : Nat) : sub64 (a % U64) b = sub64 a b := by
  unfold sub64
  rw [Nat.mod_mod]

theorem sub64_mod_right (a b : Nat) : sub64 a (b % U64) = sub64 a b := by
  unfold sub64
  rw [Nat.mod_mod]

theorem periodsN_isPeriod (r : Nat) (hr : r < RESCNT) : IsPeriod (periodsN r) := by
  unfold RESCNT at hr
  unfold IsPeriod
  interval_cases r <;> simp [periodsN, periods]

theorem fired_succ (p n : Nat) (hp : IsPeriod p) :
    fired p (n + 1) = if n % p = 0 then fired p n + 1 else fired p n := by
  unfold fired
  rcases hp with h | h | h | h <;> subst h <;> split <;> omega

theorem fired_mul (p n : Nat) (hp : IsPeriod p) (h : n % p = 0) : fired p n * p = n := by
  unfold fired
  rcases hp with h1 | h1 | h1 | h1 <;> subst h1 <;> omega

theorem fired_zero (p : Nat) (hp : IsPeriod p) : fired p 0 = 0 := by
  unfold fired
  rcases hp with h1 | h1 | h1 | h1 <;> subst h1 <;> omega

/-- The closed form of a channel after `n` calls of `record`. -/
theorem daemon_chan_inv (numif : Nat) (seed : Nat → Nat × Nat)
    (readings : Nat → Nat → Nat × Nat) (i r : Nat) (hi : i < numif) (hr : r < RESCNT) (n : Nat) :
    (chan (daemon numif seed readings n) i r).wr = fired (periodsN r) n % 256 ∧
    (chan (daemon numif seed readings n) i r).prx
      = (reading_at seed readings i (periodsN r) (fired (periodsN r) n)).1 % U64 ∧
    (chan (daemon numif seed readings n) i r).ptx
      = (reading_at seed readings i (periodsN r) (fired (periodsN r) n)).2 % U64 ∧
    ∀ f, 1 ≤ f → f ≤ fired (periodsN r) n → fired (periodsN r) n < f + 256 →
      (chan (daemon numif seed readings n) i r).rx (f % 256)
        = delta_rx seed readings i (periodsN r) f ∧
      (chan (daemon numif seed readings n) i r).tx (f % 256)
        = delta_tx seed readings i (periodsN r) f := by
  have hp := periodsN_isPeriod r hr
  induction n with
  | zero =>
    rw [daemon_chan_zero _ _ _ _ _ hi hr, fired_zero _ hp]
    refine ⟨rfl, rfl, rfl, ?_⟩
    intro f h1 h2
    omega
  | succ n ih =>
    obtain ⟨ihw, ihr, iht, ihs⟩ := ih
    rw [daemon_chan_succ _ _ _ _ _ _ hi hr, fired_succ _ _ hp]
    by_cases h : n % periodsN r = 0
    · have hn := fired_mul _ _ hp h
      have hrd : reading_at seed readings i (periodsN r) (fired (periodsN r) n + 1)
          = readings n i := by
        simp [reading_at, hn]
      simp only [if_pos h, chan_step]
      refine ⟨by rw [ihw]; omega, by rw [hrd], by rw [hrd], ?_⟩
      intro f h1 h2 h3
      by_cases hf : f = fired (periodsN r) n + 1
      · subst hf
        have hw : (fired (periodsN r) n + 1) % 256
            = ((chan (daemon numif seed readings n) i r).wr + 1) % 256 := by
          rw [ihw]; omega
        simp only [hw, set1, if_true, delta_rx, delta_tx, hrd, Nat.add_sub_cancel, ihr, iht,
          sub64_mod_left, sub64_mod_right, and_self]
      · have hw : f % 256 ≠ ((chan (daemon numif seed readings n) i r).wr + 1) % 256 := by
          rw [ihw]; omega
        simp only [set1, if_neg hw]
        exact ihs f h1 (by omega) (by omega)
    · simp only [if_neg h]
      exact ⟨ihw, ihr, iht, ihs⟩

theorem sub64_int (a b : Nat) :
    ((sub64 a b : Nat) : Int) = ((a : Int) - (b : Int)) % (2 : Int) ^ 64 := by
  unfold sub64 U64 at *
  omega

theorem sub64_add (b d : Nat) : sub64 (b + d) b = d % U64 := by
  have h := sub64_int (b + d) b
  have h2 : ((b + d : Nat) : Int) - (b : Int) = (d : Int) := by push_cast; ring
  rw [h2] at h
  unfold U64
  exact_mod_cast h

theorem sub64_of_le (a b : Nat) (ha : a < U64) (h : b ≤ a) : sub64 a b = a - b := by
  unfold sub64 U64 at *
  omega

theorem sub64_wrap (b d : Nat) (hd : d < U64) : sub64 ((b + d) % U64) b = d := by
  unfold sub64 U64 at *
  omega

/-- C1: when resolution `r` fires in `record` (its countdown is 0) for interface
`i` with sampled counters `(rx, tx)`, the write index advances to the next slot,
that slot receives `(rx - previous_rx) mod 2^64` and `(tx - previous_tx) mod 2^64`,
and the previous values become `rx`, `tx`. Without wrap (`previous ≤ current`)
the stored delta is the exact difference; across a wraparound
(`current = (previous + d) mod 2^64`, `d < 2^64`) the stored delta is `d`. -/
theorem C1_record_stores_modular_delta (sample : Nat → Nat × Nat) (s : Daemon) (i r : Nat)
    (hi : i < s.numif) (hr : r < RESCNT) (hfire : s.ticks r = 0)
    (hrx : (sample i).1 < U64) (htx : (sample i).2 < U64) :
    (((record sample s).1.statistics i).wr r = ((s.statistics i).wr r + 1) % 256) ∧
    ((newest_rx (record sample s).1 i r : Int)
      = (((sample i).1 : Int) - (s.previous_rx i r : Int)) % (2 : Int) ^ 64) ∧
    ((newest_tx (record sample s).1 i r : Int)
      = (((sample i).2 : Int) - (s.previous_tx i r : Int)) % (2 : Int) ^ 64) ∧
    (record sample s).1.previous_rx i r = (sample i).1 ∧
    (record sample s).1.previous_tx i r = (sample i).2 ∧
    (s.previous_rx i r ≤ (sample i).1 →
      newest_rx (record sample s).1 i r = (sample i).1 - s.previous_rx i r) ∧
    (s.previous_tx i r ≤ (sample i).2 →
      newest_tx (record sample s).1 i r = (sample i).2 - s.previous_tx i r) ∧
    (∀ d, d < U64 → (sample i).1 = (s.previous_rx i r + d) % U64 →
      newest_rx (record sample s).1 i r = d) ∧
    (∀ d, d < U64 → (sample i).2 = (s.previous_tx i r + d) % U64 →
      newest_tx (record sample s).1 i r = d) := by
  have h := record_chan sample s i r
  rw [if_pos ⟨hi, hr, hfire⟩, Nat.mod_eq_of_lt hrx, Nat.mod_eq_of_lt htx] at h
  have hw : ((record sample s).1.statistics i).wr r = ((s.statistics i).wr r + 1) % 256 :=
    congrArg Chan.wr h
  have hnr : newest_rx (record sample s).1 i r = sub64 (sample i).1 (s.previous_rx i r) := by
    have h1 := congrArg Chan.rx h
    simp only [chan, chan_step] at h1
    unfold newest_rx
    rw [h1, hw]
    simp [set1]
  have hnt : newest_tx (record sample s).1 i r = sub64 (sample i).2 (s.previous_tx i r) := by
    have h1 := congrArg Chan.tx h
    simp only [chan, chan_step] at h1
    unfold newest_tx
    rw [h1, hw]
    simp [set1]
  refine ⟨hw, ?_, ?_, congrArg Chan.prx h, congrArg Chan.ptx h, ?_, ?_, ?_, ?_⟩
  · rw [hnr]; exact sub64_int _ _
  · rw [hnt]; exact sub64_int _ _
  · intro hle; rw [hnr]; exact sub64_of_le _ _ hrx hle
  · intro hle; rw [hnt]; exact sub64_of_le _ _ htx hle
  · intro d hd he; rw [hnr, he]; exact sub64_wrap _ _ hd
  · intro d hd he; rw [hnt, he]; exact sub64_wrap _ _ hd

/-- C1 at a concrete input: previous `rx = 1000`, current `1500` stores 500;
previous `tx = 2^64 - 1`, current `4` (wrapped after 5 bytes) stores 5. -/
theorem C1_record_stores_modular_delta_witness :
    demo_state.ticks 1 = 0 ∧
    newest_rx (record (fun _ => (1500, 4)) demo_state).1 0 1 = 500 ∧
    newest_tx (record (fun _ => (1500, 4)) demo_state).1 0 1 = 5 := by
  have h := C1_record_stores_modular_delta (fun _ => (1500, 4)) demo_state 0 1
    (by decide) (by decide) (by decide) (by decide) (by decide)
  exact ⟨by decide, h.2.2.2.2.2.1 (by decide), h.2.2.2.2.2.2.2.2 5 (by decide) (by decide)⟩

theorem daemon_fires_iff (numif : Nat) (seed : Nat → Nat × Nat)
    (readings : Nat → Nat → Nat × Nat) (k r : Nat) (hr : r < RESCNT) :
    (daemon numif seed readings k).ticks r = 0 ↔ k % periodsN r = 0 := by
  rw [daemon_ticks _ _ _ _ _ hr]
  exact_mod_cast Iff.rfl

/-- C2: from start-up (all countdowns 0), call number `k` of `record` (counting
from 0) records a sample for resolution `r` exactly when `k mod periods[r] = 0`,
with periods 1, 60, 3600, 86400: the guard `ticks[r] == 0` holds exactly then,
the write index of every interface advances by one exactly then, and on the
other calls nothing of resolution `r` is touched. Every window of `periods[r]`
consecutive calls contains exactly one recording call, and after every call
`0 ≤ ticks[r] < periods[r]`. -/
theorem C2_record_fires_every_period (numif : Nat) (seed : Nat → Nat × Nat)
    (readings : Nat → Nat → Nat × Nat) (k r : Nat) (hr : r < RESCNT) :
    (periods 0 = 1 ∧ periods 1 = 60 ∧ periods 2 = 3600 ∧ periods 3 = 86400) ∧
    ((daemon numif seed readings k).ticks r = 0 ↔ k % periodsN r = 0) ∧
    (∀ i, i < numif →
      ((daemon numif seed readings (k + 1)).statistics i).wr r =
        if k % periodsN r = 0 then (((daemon numif seed readings k).statistics i).wr r + 1) % 256
        else ((daemon numif seed readings k).statistics i).wr r) ∧
    (k % periodsN r ≠ 0 → ∀ i, i < numif →
      chan (daemon numif seed readings (k + 1)) i r = chan (daemon numif seed readings k) i r) ∧
    (∀ a, ∃! j, a ≤ j ∧ j < a + periodsN r ∧ (daemon numif seed readings j).ticks r = 0) ∧
    (0 ≤ (daemon numif seed readings (k + 1)).ticks r ∧
      (daemon numif seed readings (k + 1)).ticks r < periods r) := by
  have hp := periodsN_isPeriod r hr
  refine ⟨by decide, daemon_fires_iff _ _ _ _ _ hr, ?_, ?_, ?_, ?_⟩
  · intro i hi
    have h := congrArg Chan.wr (daemon_chan_succ numif seed readings k i r hi hr)
    by_cases hk : k % periodsN r = 0
    · rw [if_pos hk] at h ⊢
      exact h
    · rw [if_neg hk] at h ⊢
      exact h
  · intro hk i hi
    rw [daemon_chan_succ _ _ _ _ _ _ hi hr, if_neg hk]
  · intro a
    refine ⟨(a + periodsN r - 1) / periodsN r * periodsN r, ⟨?_, ?_, ?_⟩, ?_⟩
    · rcases hp with h | h | h | h <;> rw [h] <;> omega
    · rcases hp with h | h | h | h <;> rw [h] <;> omega
    · rw [daemon_fires_iff _ _ _ _ _ hr]
      exact Nat.mul_mod_left _ _
    · intro y hy
      rw [daemon_fires_iff _ _ _ _ _ hr] at hy
      rcases hp with h | h | h | h <;> rw [h] at hy ⊢ <;> omega
  · rw [daemon_ticks _ _ _ _ _ hr, periods_eq]
    rcases hp with h | h | h | h <;> rw [h] <;> omega

/-- C2 at resolution 1 (minutes): call 120 records, and the countdown after it is 1. -/
theorem C2_record_fires_every_period_witness :
    (daemon 2 (fun _ => (7, 9)) (fun k _ => (7 + k, 9 + 2 * k)) 120).ticks 1 = 0 ∧
    (daemon 2 (fun _ => (7, 9)) (fun k _ => (7 + k, 9 + 2 * k)) 121).ticks 1 < periods 1 := by
  have h := C2_record_fires_every_period 2 (fun _ => (7, 9)) (fun k _ => (7 + k, 9 + 2 * k))
    120 1 (by decide)
  exact ⟨h.2.1.2 (by decide), h.2.2.2.2.2.2⟩

theorem fired_after (p j : Nat) (hp : IsPeriod p) : fired p (j * p + 1) = j + 1 := by
  unfold fired
  rcases hp with h | h | h | h <;> subst h <;> omega

theorem recorded_eq (numif : Nat) (seed : Nat → Nat × Nat) (readings : Nat → Nat → Nat × Nat)
    (i r j : Nat) (hi : i < numif) (hr : r < RESCNT) (hj : 1 ≤ j) :
    recorded_rx numif seed readings i r j = delta_rx seed readings i (periodsN r) j ∧
    recorded_tx numif seed readings i r j = delta_tx seed readings i (periodsN r) j := by
  have hp := periodsN_isPeriod r hr
  obtain ⟨hw, -, -, hs⟩ := daemon_chan_inv numif seed readings i r hi hr ((j - 1) * periodsN r + 1)
  rw [fired_after _ _ hp, Nat.sub_add_cancel hj] at hw hs
  have h := hs j hj (le_refl _) (by omega)
  unfold recorded_rx recorded_tx newest_rx newest_tx
  simp only [chan] at hw h
  rw [hw]
  exact h

/-- C3, as stated, fails: with an interface receiving 500 bytes per second, the
first delta stored for the minute resolution is written by the very first call
of `record` (write index 0 before, 1 after) and is 0, the traffic between the
initial sample and the first call; it is not the difference of two readings
taken 60 ticks apart (nor of the reading of call 60 and the initial sample),
which is 30000. -/
theorem C3_first_delta_counterexample :
    ((daemon 1 ramp_seed ramp_readings 0).statistics 0).wr 1 = 0 ∧
    ((daemon 1 ramp_seed ramp_readings 1).statistics 0).wr 1 = 1 ∧
    newest_rx (daemon 1 ramp_seed ramp_readings 1) 0 1 = 0 ∧
    sub64 (ramp_readings 60 0).1 (ramp_seed 0).1 = 30000 ∧
    ¬ ∃ k, newest_rx (daemon 1 ramp_seed ramp_readings 1) 0 1
        = sub64 (ramp_readings (k + 60) 0).1 (ramp_readings k 0).1 := by
  refine ⟨by decide, by decide, by decide, by decide, ?_⟩
  have h0 : newest_rx (daemon 1 ramp_seed ramp_readings 1) 0 1 = 0 := by decide
  rw [h0]
  rintro ⟨k, hk⟩
  have h1 : (ramp_readings (k + 60) 0).1 = (ramp_readings k 0).1 + 30000 := by
    show 1000 + 500 * (k + 60) = 1000 + 500 * k + 30000
    ring
  rw [h1, sub64_add] at hk
  simp [U64] at hk

/-- C3, amended: every resolution `r` makes its first recording in the very first
call of `record`, and the delta stored there is the first reading minus the
initial sample of `prepare_service` (modulo `2^64`), the same for all four
resolutions: not the cumulative value since boot. Every later recording
`j ≥ 2` of `r` stores the difference of the readings of calls
`(j-1) * periods[r]` and `(j-2) * periods[r]`: exactly one period of traffic. -/
theorem C3_first_delta_amended (numif : Nat) (seed : Nat → Nat × Nat)
    (readings : Nat → Nat → Nat × Nat) (i r : Nat) (hi : i < numif) (hr : r < RESCNT) :
    (daemon numif seed readings 0).ticks r = 0 ∧
    ((daemon numif seed readings 0).statistics i).wr r = 0 ∧
    ((daemon numif seed readings 1).statistics i).wr r = 1 ∧
    newest_rx (daemon numif seed readings 1) i r = sub64 (readings 0 i).1 (seed i).1 ∧
    newest_tx (daemon numif seed readings 1) i r = sub64 (readings 0 i).2 (seed i).2 ∧
    ∀ j, 2 ≤ j →
      recorded_rx numif seed readings i r j
        = sub64 (readings ((j - 1) * periodsN r) i).1 (readings ((j - 2) * periodsN r) i).1 ∧
      recorded_tx numif seed readings i r j
        = sub64 (readings ((j - 1) * periodsN r) i).2 (readings ((j - 2) * periodsN r) i).2 := by
  have hp := periodsN_isPeriod r hr
  have h0 := daemon_chan_zero numif seed readings i r hi hr
  have h1 := recorded_eq numif seed readings i r 1 hi hr (le_refl _)
  have hw1 := (daemon_chan_inv numif seed readings i r hi hr 1).1
  have hf1 : fired (periodsN r) 1 = 1 := by
    have := fired_after (periodsN r) 0 hp
    simpa using this
  rw [hf1] at hw1
  refine ⟨?_, congrArg Chan.wr h0, hw1, ?_, ?_, ?_⟩
  · rw [daemon_ticks _ _ _ _ _ hr]; simp
  · have := h1.1
    simpa [recorded_rx, delta_rx, reading_at] using this
  · have := h1.2
    simpa [recorded_tx, delta_tx, reading_at] using this
  · intro j hj
    have h := recorded_eq numif seed readings i r j hi hr (by omega)
    have hj1 : j ≠ 0 := by omega
    have hj2 : j - 1 ≠ 0 := by omega
    have hj3 : j - 1 - 1 = j - 2 := by omega
    rw [h.1, h.2]
    simp [delta_rx, delta_tx, reading_at, hj1, hj2, hj3]

/-- C3 (amended) at the minute resolution of the 500 bytes per second ramp: the
first stored delta is 0 and the second is one minute of traffic, 30000. -/
theorem C3_first_delta_amended_witness :
    newest_rx (daemon 1 ramp_seed ramp_readings 1) 0 1 = 0 ∧
    recorded_rx 1 ramp_seed ramp_readings 0 1 2 = 30000 := by
  have h := C3_first_delta_amended 1 ramp_seed ramp_readings 0 1 (by decide) (by decide)
  refine ⟨by rw [h.2.2.2.1]; decide, ?_⟩
  rw [(h.2.2.2.2.2 2 (by decide)).1]
  simp [ramp_readings, periodsN, periods, sub64, U64]

theorem sub64_lt (a b : Nat) : sub64 a b < U64 :=
  Nat.mod_lt _ (by unfold U64; positivity)

theorem sub64_modEq (a b : Nat) :
    ((sub64 a b : Nat) : Int) ≡ (a : Int) - b [ZMOD (2 : Int) ^ 64] := by
  rw [sub64_int]
  exact Int.mod_modEq _ _

theorem eq_sub64_of_modEq (x a b : Nat)
    (h : (x : Int) ≡ (a : Int) - b [ZMOD (2 : Int) ^ 64]) : x % U64 = sub64 a b := by
  have h2 : (x : Int) ≡ ((sub64 a b : Nat) : Int) [ZMOD (2 : Int) ^ 64] :=
    h.trans (sub64_modEq a b).symm
  have h3 : ((x % U64 : Nat) : Int) = ((sub64 a b : Nat) : Int) := by
    have hl := sub64_lt a b
    have := h2.eq
    unfold U64 at *
    omega
  exact_mod_cast h3

theorem sum_sub64_telescope (c : Nat → Nat) (a d : Nat) :
    (∑ k in Finset.range d, sub64 (c (a + k + 1)) (c (a + k))) % U64
      = sub64 (c (a + d)) (c a) := by
  apply eq_sub64_of_modEq
  induction d with
  | zero => simp
  | succ d ih =>
    rw [Finset.sum_range_succ]
    push_cast
    have h := ih.add (sub64_modEq (c (a + d + 1)) (c (a + d)))
    have e : ((c (a + d) : Int) - c a + (c (a + d + 1) - c (a + d)))
        = (c (a + (d + 1)) : Int) - c a := by
      rw [← Nat.add_assoc]; ring
    rw [e] at h
    exact_mod_cast h

theorem newest_second (numif : Nat) (seed : Nat → Nat × Nat) (readings : Nat → Nat → Nat × Nat)
    (i k : Nat) (hi : i < numif) :
    newest_rx (daemon numif seed readings (k + 1 + 1)) i 0
      = sub64 (readings (k + 1) i).1 (readings k i).1 ∧
    newest_tx (daemon numif seed readings (k + 1 + 1)) i 0
      = sub64 (readings (k + 1) i).2 (readings k i).2 := by
  have h := recorded_eq numif seed readings i 0 (k + 2) hi (by decide) (by omega)
  have hp : periodsN 0 = 1 := rfl
  simp only [recorded_rx, recorded_tx, delta_rx, delta_tx, reading_at, hp] at h
  have e1 : (k + 2 - 1) * 1 = k + 1 := by omega
  have e2 : (k + 2 - 1 - 1) * 1 = k := by omega
  have e3 : ¬ k + 2 = 0 := by omega
  have e4 : ¬ k + 2 - 1 = 0 := by omega
  rw [e1, if_neg e3, if_neg e4, e2] at h
  exact h

theorem newest_fire (numif : Nat) (seed : Nat → Nat × Nat) (readings : Nat → Nat → Nat × Nat)
    (i r t : Nat) (hi : i < numif) (hr : r < RESCNT) (ht : t % periodsN r = 0)
    (hpt : periodsN r ≤ t) :
    newest_rx (daemon numif seed readings (t + 1)) i r
      = sub64 (readings t i).1 (readings (t - periodsN r) i).1 ∧
    newest_tx (daemon numif seed readings (t + 1)) i r
      = sub64 (readings t i).2 (readings (t - periodsN r) i).2 := by
  have hp := periodsN_isPeriod r hr
  obtain ⟨j, hj⟩ : ∃ j, t = (j + 1) * periodsN r := by
    refine ⟨t / periodsN r - 1, ?_⟩
    rcases hp with h | h | h | h <;> rw [h] at ht hpt ⊢ <;> omega
  have h := recorded_eq numif seed readings i r (j + 2) hi hr (by omega)
  simp only [recorded_rx, recorded_tx, delta_rx, delta_tx, reading_at] at h
  have e1 : j + 2 - 1 = j + 1 := by omega
  have e2 : j + 1 - 1 = j := by omega
  have e3 : ¬ j + 2 = 0 := by omega
  have e4 : ¬ j + 1 = 0 := by omega
  have e5 : t - periodsN r = j * periodsN r := by
    rw [hj, Nat.add_mul, Nat.one_mul, Nat.add_sub_cancel]
  rw [e1, if_neg e3, if_neg e4, e2, ← hj] at h
  rw [e5]
  exact h

/-- C10: for every interface, every sequence of readings and every resolution
`r`, the delta stored for `r` by a recording on tick `t ≥ periods[r]` equals the
sum modulo `2^64` of the `periods[r]` per-second deltas stored on ticks
`t - periods[r] + 1 .. t`; and the sum modulo `2^64` of the first `n ≥ 1` deltas
stored for `r` equals the reading at the `n`-th recording minus the value
seeded by `prepare_service`. -/
theorem C10_cross_resolution_consistency (numif : Nat) (seed : Nat → Nat × Nat)
    (readings : Nat → Nat → Nat × Nat) (i r : Nat) (hi : i < numif) (hr : r < RESCNT) :
    (∀ t, t % periodsN r = 0 → periodsN r ≤ t →
      newest_rx (daemon numif seed readings (t + 1)) i r
        = (∑ k in Finset.Ico (t + 1 - periodsN r) (t + 1),
            newest_rx (daemon numif seed readings (k + 1)) i 0) % U64 ∧
      newest_tx (daemon numif seed readings (t + 1)) i r
        = (∑ k in Finset.Ico (t + 1 - periodsN r) (t + 1),
            newest_tx (daemon numif seed readings (k + 1)) i 0) % U64) ∧
    (∀ n, 1 ≤ n →
      (∑ j in Finset.range n, recorded_rx numif seed readings i r (j + 1)) % U64
        = sub64 (readings ((n - 1) * periodsN r) i).1 (seed i).1 ∧
      (∑ j in Finset.range n, recorded_tx numif seed readings i r (j + 1)) % U64
        = sub64 (readings ((n - 1) * periodsN r) i).2 (seed i).2) := by
  constructor
  · intro t ht hpt
    have hf := newest_fire numif seed readings i r t hi hr ht hpt
    have hsub : t + 1 - (t + 1 - periodsN r) = periodsN r := by omega
    have hidx : ∀ k, t + 1 - periodsN r + k + 1 = (t - periodsN r) + k + 1 + 1 := by
      intro k; omega
    rw [hf.1, hf.2, Finset.sum_Ico_eq_sum_range, Finset.sum_Ico_eq_sum_range, hsub]
    simp only [hidx, (newest_second numif seed readings i _ hi).1,
      (newest_second numif seed readings i _ hi).2]
    have h1 := sum_sub64_telescope (fun k => (readings k i).1) (t - periodsN r) (periodsN r)
    have h2 := sum_sub64_telescope (fun k => (readings k i).2) (t - periodsN r) (periodsN r)
    simp only [Nat.sub_add_cancel hpt] at h1 h2
    exact ⟨h1.symm, h2.symm⟩
  · intro n hn
    have h1 := sum_sub64_telescope (fun j => (reading_at seed readings i (periodsN r) j).1) 0 n
    have h2 := sum_sub64_telescope (fun j => (reading_at seed readings i (periodsN r) j).2) 0 n
    have hn0 : ¬ n = 0 := by omega
    simp only [Nat.zero_add] at h1 h2
    have e : ∀ j, recorded_rx numif seed readings i r (j + 1)
        = sub64 (reading_at seed readings i (periodsN r) (j + 1)).1
            (reading_at seed readings i (periodsN r) j).1 := by
      intro j
      rw [(recorded_eq numif seed readings i r (j + 1) hi hr (by omega)).1]
      rfl
    have e2 : ∀ j, recorded_tx numif seed readings i r (j + 1)
        = sub64 (reading_at seed readings i (periodsN r) (j + 1)).2
            (reading_at seed readings i (periodsN r) j).2 := by
      intro j
      rw [(recorded_eq numif seed readings i r (j + 1) hi hr (by omega)).2]
      rfl
    simp only [e, e2, h1, h2]
    simp [reading_at, hn0]

/-- C10 at the minute resolution of the 500 bytes per second ramp: the delta
stored on tick 60 is the sum of the 60 per-second deltas of ticks 1 to 60. -/
theorem C10_cross_resolution_consistency_witness :
    newest_rx (daemon 1 ramp_seed ramp_readings (60 + 1)) 0 1
      = (∑ k in Finset.Ico (60 + 1 - periodsN 1) (60 + 1),
          newest_rx (daemon 1 ramp_seed ramp_readings (k + 1)) 0 0) % U64 :=
  ((C10_cross_resolution_consistency 1 ramp_seed ramp_readings 0 1 (by decide) (by decide)).1
    60 (by decide) (by decide)).1

/-! ### Single-precision rounding -/

theorem rne_floor_or (q : ℚ) : rne q = ⌊q⌋ ∨ rne q = ⌊q⌋ + 1 := by
  unfold rne
  split_ifs <;> simp

theorem rne_ge (q : ℚ) : q - 1 / 2 ≤ (rne q : ℚ) := by
  have h1 := Int.floor_le q
  have h2 := Int.lt_floor_add_one q
  unfold rne
  split_ifs with a b c
  · linarith
  · push_cast; linarith
  · linarith
  · push_cast; linarith

theorem rne_le (q : ℚ) : (rne q : ℚ) ≤ q + 1 / 2 := by
  have h1 := Int.floor_le q
  have h2 := Int.lt_floor_add_one q
  unfold rne
  split_ifs with a b c
  · linarith
  · push_cast; linarith
  · linarith
  · push_cast; linarith

theorem rne_int (n : Int) : rne (n : ℚ) = n := by
  unfold rne
  simp

theorem rne_mono {a b : ℚ} (h : a ≤ b) : rne a ≤ rne b := by
  have hf : ⌊a⌋ ≤ ⌊b⌋ := Int.floor_mono h
  rcases lt_or_eq_of_le hf with hlt | heq
  · rcases rne_floor_or a with ha | ha <;> rcases rne_floor_or b with hb | hb <;> omega
  · unfold rne
    rw [heq]
    split_ifs <;> first | omega | (exfalso; linarith)

theorem rne_ge_int {q : ℚ} {n : Int} (h : (n : ℚ) ≤ q) : n ≤ rne q := by
  have := rne_mono h
  rwa [rne_int] at this

theorem rne_le_int {q : ℚ} {n : Int} (h : q ≤ (n : ℚ)) : rne q ≤ n := by
  have := rne_mono h
  rwa [rne_int] at this

theorem two_zpow_pos (e : Int) : (0 : ℚ) < 2 ^ e := zpow_pos (by norm_num) e

theorem two_zpow_split (L : Int) : (2 : ℚ) ^ L = 2 ^ (23 : Nat) * 2 ^ (L - 23) := by
  rw [← zpow_natCast, ← zpow_add₀ (by norm_num : (2 : ℚ) ≠ 0)]
  congr 1
  push_cast
  ring

theorem two_zpow_split1 (L : Int) : (2 : ℚ) ^ (L + 1) = 2 ^ (24 : Nat) * 2 ^ (L - 23) := by
  rw [← zpow_natCast, ← zpow_add₀ (by norm_num : (2 : ℚ) ≠ 0)]
  congr 1
  push_cast
  ring

theorem scaled_ge {q : ℚ} (hq : 0 < q) : (2 : ℚ) ^ (23 : Nat) ≤ q / 2 ^ (Int.log 2 |q| - 23) := by
  rw [abs_of_pos hq, le_div_iff₀ (two_zpow_pos _), ← two_zpow_split]
  have := Int.zpow_log_le_self (b := 2) (by norm_num) hq
  exact_mod_cast this

theorem scaled_lt {q : ℚ} (hq : 0 < q) : q / 2 ^ (Int.log 2 |q| - 23) < (2 : ℚ) ^ (24 : Nat) := by
  rw [abs_of_pos hq, div_lt_iff₀ (two_zpow_pos _), ← two_zpow_split1]
  have := Int.lt_zpow_succ_log_self (b := 2) (by norm_num) q
  exact_mod_cast this

theorem f32_zero : f32 0 = 0 := by simp [f32]

theorem f32_pos_eq {q : ℚ} (hq : 0 < q) :
    f32 q = (rne (q / 2 ^ (Int.log 2 |q| - 23)) : ℚ) * 2 ^ (Int.log 2 |q| - 23) := by
  unfold f32
  rw [if_neg (ne_of_gt hq)]

theorem rne_scaled_ge {q : ℚ} (hq : 0 < q) :
    (2 : ℚ) ^ (23 : Nat) ≤ (rne (q / 2 ^ (Int.log 2 |q| - 23)) : ℚ) := by
  have h : ((2 ^ 23 : Int) : ℚ) ≤ q / 2 ^ (Int.log 2 |q| - 23) := by
    have := scaled_ge hq
    push_cast
    exact this
  have := rne_ge_int h
  exact_mod_cast this

theorem rne_scaled_le {q : ℚ} (hq : 0 < q) :
    (rne (q / 2 ^ (Int.log 2 |q| - 23)) : ℚ) ≤ (2 : ℚ) ^ (24 : Nat) := by
  have h : q / 2 ^ (Int.log 2 |q| - 23) ≤ ((2 ^ 24 : Int) : ℚ) := by
    have := scaled_lt hq
    push_cast
    exact le_of_lt this
  have := rne_le_int h
  exact_mod_cast this

theorem f32_pos {q : ℚ} (hq : 0 < q) : 0 < f32 q := by
  rw [f32_pos_eq hq]
  have h1 := rne_scaled_ge hq
  have h2 := two_zpow_pos (Int.log 2 |q| - 23)
  have h3 : (0 : ℚ) < 2 ^ (23 : Nat) := by norm_num
  exact mul_pos (lt_of_lt_of_le h3 h1) h2

theorem f32_nonneg {q : ℚ} (hq : 0 ≤ q) : 0 ≤ f32 q := by
  rcases eq_or_lt_of_le hq with h | h
  · rw [← h, f32_zero]
  · exact le_of_lt (f32_pos h)

theorem f32_ge {q : ℚ} (hq : 0 < q) : q * (1 - 1 / 2 ^ (24 : Nat)) ≤ f32 q := by
  rw [f32_pos_eq hq]
  have hs := scaled_ge hq
  have hr := rne_ge (q / 2 ^ (Int.log 2 |q| - 23))
  have hp := two_zpow_pos (Int.log 2 |q| - 23)
  have key : (q / 2 ^ (Int.log 2 |q| - 23)) * (1 - 1 / 2 ^ (24 : Nat))
      ≤ (rne (q / 2 ^ (Int.log 2 |q| - 23)) : ℚ) := by
    norm_num at hs ⊢
    linarith
  calc q * (1 - 1 / 2 ^ (24 : Nat))
      = ((q / 2 ^ (Int.log 2 |q| - 23)) * (1 - 1 / 2 ^ (24 : Nat)))
          * 2 ^ (Int.log 2 |q| - 23) := by
        field_simp
        ring
    _ ≤ _ := mul_le_mul_of_nonneg_right key (le_of_lt hp)

theorem f32_le {q : ℚ} (hq : 0 < q) : f32 q ≤ q * (1 + 1 / 2 ^ (24 : Nat)) := by
  rw [f32_pos_eq hq]
  have hs := scaled_ge hq
  have hr := rne_le (q / 2 ^ (Int.log 2 |q| - 23))
  have hp := two_zpow_pos (Int.log 2 |q| - 23)
  have key : (rne (q / 2 ^ (Int.log 2 |q| - 23)) : ℚ)
      ≤ (q / 2 ^ (Int.log 2 |q| - 23)) * (1 + 1 / 2 ^ (24 : Nat)) := by
    norm_num at hs ⊢
    linarith
  calc (rne (q / 2 ^ (Int.log 2 |q| - 23)) : ℚ) * 2 ^ (Int.log 2 |q| - 23)
      ≤ ((q / 2 ^ (Int.log 2 |q| - 23)) * (1 + 1 / 2 ^ (24 : Nat)))
          * 2 ^ (Int.log 2 |q| - 23) := mul_le_mul_of_nonneg_right key (le_of_lt hp)
    _ = q * (1 + 1 / 2 ^ (24 : Nat)) := by
        field_simp
        ring

theorem f32_mono_pos {a b : ℚ} (ha : 0 < a) (h : a ≤ b) : f32 a ≤ f32 b := by
  have hb : 0 < b := lt_of_lt_of_le ha h
  have hL : Int.log 2 |a| ≤ Int.log 2 |b| := by
    rw [abs_of_pos ha, abs_of_pos hb]
    exact Int.log_mono_right ha h
  rw [f32_pos_eq ha, f32_pos_eq hb]
  rcases lt_or_eq_of_le hL with hlt | heq
  · have h1 := rne_scaled_le ha
    have h2 := rne_scaled_ge hb
    have hpa := two_zpow_pos (Int.log 2 |a| - 23)
    have hpb := two_zpow_pos (Int.log 2 |b| - 23)
    calc (rne (a / 2 ^ (Int.log 2 |a| - 23)) : ℚ) * 2 ^ (Int.log 2 |a| - 23)
        ≤ 2 ^ (24 : Nat) * 2 ^ (Int.log 2 |a| - 23) :=
          mul_le_mul_of_nonneg_right h1 (le_of_lt hpa)
      _ = 2 ^ (Int.log 2 |a| + 1) := (two_zpow_split1 _).symm
      _ ≤ 2 ^ (Int.log 2 |b|) := zpow_le_zpow_right₀ (by norm_num) (by omega)
      _ = 2 ^ (23 : Nat) * 2 ^ (Int.log 2 |b| - 23) := two_zpow_split _
      _ ≤ _ := mul_le_mul_of_nonneg_right h2 (le_of_lt hpb)
  · rw [heq]
    have hpb := two_zpow_pos (Int.log 2 |b| - 23)
    have hdiv : a / 2 ^ (Int.log 2 |b| - 23) ≤ b / 2 ^ (Int.log 2 |b| - 23) :=
      div_le_div_of_nonneg_right h (le_of_lt hpb)
    have := rne_mono hdiv
    exact mul_le_mul_of_nonneg_right (by exact_mod_cast this) (le_of_lt hpb)

theorem f32_mono {a b : ℚ} (ha : 0 ≤ a) (h : a ≤ b) : f32 a ≤ f32 b := by
  rcases eq_or_lt_of_le ha with h0 | h0
  · rw [← h0, f32_zero]
    exact f32_nonneg (le_trans ha h)
  · exact f32_mono_pos h0 h

theorem f32_exact (m : Nat) (k : Int) (h0 : 0 < m) (h1 : m < 2 ^ 24) :
    f32 ((m : ℚ) * 2 ^ k) = (m : ℚ) * 2 ^ k := by
  have hq : (0 : ℚ) < (m : ℚ) * 2 ^ k := mul_pos (by exact_mod_cast h0) (two_zpow_pos k)
  have hlt : (m : ℚ) * 2 ^ k < ((2 : Nat) : ℚ) ^ (24 + k) := by
    rw [zpow_add₀ (by norm_num)]
    apply mul_lt_mul_of_pos_right _ (by exact_mod_cast two_zpow_pos k)
    have : (m : ℚ) < ((2 ^ 24 : Nat) : ℚ) := by exact_mod_cast h1
    have e : (((2 : Nat) : ℚ)) ^ (24 : Int) = ((2 ^ 24 : Nat) : ℚ) := by norm_num
    rw [e]
    exact this
  have hL : Int.log 2 |(m : ℚ) * 2 ^ k| < 24 + k := by
    rw [abs_of_pos hq]
    exact (Int.lt_zpow_iff_log_lt (by norm_num) hq).1 hlt
  rw [f32_pos_eq hq]
  generalize Int.log 2 |(m : ℚ) * 2 ^ k| = L at hL
  obtain ⟨d, hd⟩ : ∃ d : Nat, k = (L - 23) + d := ⟨(k - (L - 23)).toNat, by omega⟩
  have hp := two_zpow_pos (L - 23)
  have hs : (m : ℚ) * 2 ^ k / 2 ^ (L - 23) = ((m * 2 ^ d : Int) : ℚ) := by
    rw [hd, zpow_add₀ (by norm_num), zpow_natCast]
    push_cast
    field_simp
    ring
  rw [hs, rne_int]
  rw [hd, zpow_add₀ (by norm_num), zpow_natCast]
  push_cast
  ring

theorem f32_nat (n : Nat) (h : n ≤ 2 ^ 24) : f32 (n : ℚ) = n := by
  rcases Nat.eq_zero_or_pos n with h0 | h0
  · subst h0
    simp [f32_zero]
  · rcases Nat.lt_or_ge n (2 ^ 24) with h1 | h1
    · have := f32_exact n 0 h0 h1
      simpa using this
    · have hn : n = 2 ^ 24 := by omega
      have := f32_exact 1 24 (by norm_num) (by norm_num)
      subst hn
      norm_num at this ⊢
      exact this

theorem f32_ge_nonneg {q : ℚ} (hq : 0 ≤ q) : q * (1 - 1 / 2 ^ (24 : Nat)) ≤ f32 q := by
  rcases eq_or_lt_of_le hq with h | h
  · rw [← h, f32_zero]; simp
  · exact f32_ge h

theorem f32_le_nonneg {q : ℚ} (hq : 0 ≤ q) : f32 q ≤ q * (1 + 1 / 2 ^ (24 : Nat)) := by
  rcases eq_or_lt_of_le hq with h | h
  · rw [← h, f32_zero]; simp
  · exact f32_le h

theorem f32_le_of_le {q X : ℚ} (hq : 0 ≤ q) (h : q ≤ X) :
    f32 q ≤ X * (1 + 1 / 2 ^ (24 : Nat)) :=
  le_trans (f32_le_nonneg hq) (mul_le_mul_of_nonneg_right h (by norm_num))

theorem f32_ge_of_ge {q X : ℚ} (hX : 0 ≤ X) (h : X ≤ q) :
    X * (1 - 1 / 2 ^ (24 : Nat)) ≤ f32 q :=
  le_trans (mul_le_mul_of_nonneg_right h (by norm_num)) (f32_ge_nonneg (le_trans hX h))

theorem f32_ge_nat {q : ℚ} (n : Nat) (hn : n ≤ 2 ^ 24) (h : (n : ℚ) ≤ q) : (n : ℚ) ≤ f32 q := by
  have := f32_mono (by positivity) h
  rwa [f32_nat n hn] at this

theorem pixel_len_ge (t m h : Int) (hm : 0 < m) (hmt : m ≤ t) (h1 : 1 ≤ h) (h2 : h ≤ 2 ^ 23) :
    ((h - 1 : Int) : ℚ) ≤ pixel_len t h m := by
  obtain ⟨n, rfl⟩ := Int.eq_ofNat_of_zero_le (by omega : 0 ≤ h)
  have hn1 : 1 ≤ n := by exact_mod_cast h1
  have hn2 : n ≤ 2 ^ 23 := by exact_mod_cast h2
  have hmq : (0 : ℚ) < (m : ℚ) := by exact_mod_cast hm
  have hmtq : (m : ℚ) ≤ (t : ℚ) := by exact_mod_cast hmt
  have hb : 0 < f32 (m : ℚ) := f32_pos hmq
  have hab : f32 (m : ℚ) ≤ f32 (t : ℚ) := f32_mono (le_of_lt hmq) hmtq
  have hu : (0 : ℚ) ≤ 1 - 1 / 2 ^ (24 : Nat) := by norm_num
  have ha1 : f32 (m : ℚ) * (1 - 1 / 2 ^ (24 : Nat)) ≤ f32 (f32 (t : ℚ) * 1) :=
    f32_ge_of_ge (le_of_lt hb) (by rw [mul_one]; exact hab)
  have hh : f32 (((n : Nat) : Int) : ℚ) = (n : ℚ) := by
    rw [Int.cast_natCast]
    exact f32_nat n (by omega)
  have hnq : (0 : ℚ) ≤ (n : ℚ) := by positivity
  have hP : f32 (m : ℚ) * (1 - 1 / 2 ^ (24 : Nat)) * n * (1 - 1 / 2 ^ (24 : Nat))
      ≤ f32 (f32 (f32 (t : ℚ) * 1) * f32 (((n : Nat) : Int) : ℚ)) := by
    rw [hh]
    apply f32_ge_of_ge
    · exact mul_nonneg (mul_nonneg (le_of_lt hb) hu) hnq
    · exact mul_le_mul_of_nonneg_right ha1 hnq
  have hquot : ((n - 1 : Nat) : ℚ)
      ≤ f32 (f32 (f32 (t : ℚ) * 1) * f32 (((n : Nat) : Int) : ℚ)) / f32 (m : ℚ) := by
    rw [le_div_iff₀ hb]
    refine le_trans ?_ hP
    have e : f32 (m : ℚ) * (1 - 1 / 2 ^ (24 : Nat)) * n * (1 - 1 / 2 ^ (24 : Nat))
        = ((n : ℚ) * ((1 - 1 / 2 ^ (24 : Nat)) * (1 - 1 / 2 ^ (24 : Nat)))) * f32 (m : ℚ) := by
      ring
    rw [e]
    apply mul_le_mul_of_nonneg_right _ (le_of_lt hb)
    rw [Nat.cast_sub hn1]
    have hn3 : (n : ℚ) ≤ 8388608 := by exact_mod_cast hn2
    norm_num
    linarith
  have hQ := f32_ge_nat (n - 1) (by omega) hquot
  have hQ2 : ((n - 1 : Nat) : ℚ)
      ≤ f32 (f32 (f32 (f32 (t : ℚ) * 1) * f32 (((n : Nat) : Int) : ℚ)) / f32 (m : ℚ)) + 1 / 2 := by
    linarith
  have hR := f32_ge_nat (n - 1) (by omega) hQ2
  unfold pixel_len
  have e2 : (((n : Int) - 1 : Int) : ℚ) = ((n - 1 : Nat) : ℚ) := by
    rw [Nat.cast_sub hn1]
    push_cast
    ring
  rw [e2]
  exact hR

theorem pixel_len_bounds (v h m : Int) (hv : 0 ≤ v) (hh : 0 ≤ h) (hm : 0 < m)
    (hb : v * h ≤ 2 ^ 62 * m) :
    0 ≤ pixel_len v h m ∧ pixel_len v h m < 2 ^ (63 : Nat) := by
  have hvq : (0 : ℚ) ≤ (v : ℚ) := by exact_mod_cast hv
  have hhq : (0 : ℚ) ≤ (h : ℚ) := by exact_mod_cast hh
  have hmq : (0 : ℚ) < (m : ℚ) := by exact_mod_cast hm
  have hbq : (v : ℚ) * (h : ℚ) ≤ 2 ^ (62 : Nat) * (m : ℚ) := by exact_mod_cast hb
  have hc : (0 : ℚ) ≤ 1 + 1 / 2 ^ (24 : Nat) := by norm_num
  have hd : (0 : ℚ) < 1 - 1 / 2 ^ (24 : Nat) := by norm_num
  set c : ℚ := 1 + 1 / 2 ^ (24 : Nat) with hcdef
  -- a
  have a0 : 0 ≤ f32 (v : ℚ) := f32_nonneg hvq
  have a1 : f32 (v : ℚ) ≤ v * c := f32_le_nonneg hvq
  have b0 : 0 ≤ f32 (f32 (v : ℚ) * 1) := f32_nonneg (by rw [mul_one]; exact a0)
  have b1 : f32 (f32 (v : ℚ) * 1) ≤ v * c * c :=
    f32_le_of_le (by rw [mul_one]; exact a0) (by rw [mul_one]; exact a1)
  have h0 : 0 ≤ f32 (h : ℚ) := f32_nonneg hhq
  have h1 : f32 (h : ℚ) ≤ h * c := f32_le_nonneg hhq
  have p0 : 0 ≤ f32 (f32 (v : ℚ) * 1) * f32 (h : ℚ) := mul_nonneg b0 h0
  have p1 : f32 (f32 (v : ℚ) * 1) * f32 (h : ℚ) ≤ (v * c * c) * (h * c) :=
    mul_le_mul b1 h1 h0 (mul_nonneg (mul_nonneg hvq hc) hc)
  have P0 : 0 ≤ f32 (f32 (f32 (v : ℚ) * 1) * f32 (h : ℚ)) := f32_nonneg p0
  have P1 : f32 (f32 (f32 (v : ℚ) * 1) * f32 (h : ℚ)) ≤ (v * c * c) * (h * c) * c :=
    f32_le_of_le p0 p1
  have m1 : (m : ℚ) * (1 - 1 / 2 ^ (24 : Nat)) ≤ f32 (m : ℚ) := f32_ge_nonneg (le_of_lt hmq)
  have m0 : 0 < (m : ℚ) * (1 - 1 / 2 ^ (24 : Nat)) := mul_pos hmq hd
  have mb : 0 < f32 (m : ℚ) := f32_pos hmq
  have q0 : 0 ≤ f32 (f32 (f32 (v : ℚ) * 1) * f32 (h : ℚ)) / f32 (m : ℚ) :=
    div_nonneg P0 (le_of_lt mb)
  have q1 : f32 (f32 (f32 (v : ℚ) * 1) * f32 (h : ℚ)) / f32 (m : ℚ)
      ≤ 2 ^ (62 : Nat) * (c * c * c * c) / (1 - 1 / 2 ^ (24 : Nat)) := by
    rw [div_le_div_iff₀ mb hd]
    have t1 : f32 (f32 (f32 (v : ℚ) * 1) * f32 (h : ℚ)) * (1 - 1 / 2 ^ (24 : Nat))
        ≤ (v * c * c) * (h * c) * c * (1 - 1 / 2 ^ (24 : Nat)) :=
      mul_le_mul_of_nonneg_right P1 (le_of_lt hd)
    have t2 : (v * c * c) * (h * c) * c * (1 - 1 / 2 ^ (24 : Nat))
        = ((v : ℚ) * h) * ((c * c * c * c) * (1 - 1 / 2 ^ (24 : Nat))) := by ring
    have t3 : ((v : ℚ) * h) * ((c * c * c * c) * (1 - 1 / 2 ^ (24 : Nat)))
        ≤ (2 ^ (62 : Nat) * (m : ℚ)) * ((c * c * c * c) * (1 - 1 / 2 ^ (24 : Nat))) :=
      mul_le_mul_of_nonneg_right hbq (by positivity)
    have t4 : (2 ^ (62 : Nat) * (m : ℚ)) * ((c * c * c * c) * (1 - 1 / 2 ^ (24 : Nat)))
        = 2 ^ (62 : Nat) * (c * c * c * c) * ((m : ℚ) * (1 - 1 / 2 ^ (24 : Nat))) := by ring
    have t5 : 2 ^ (62 : Nat) * (c * c * c * c) * ((m : ℚ) * (1 - 1 / 2 ^ (24 : Nat)))
        ≤ 2 ^ (62 : Nat) * (c * c * c * c) * f32 (m : ℚ) :=
      mul_le_mul_of_nonneg_left m1 (by positivity)
    linarith
  have Q0 : 0 ≤ f32 (f32 (f32 (f32 (v : ℚ) * 1) * f32 (h : ℚ)) / f32 (m : ℚ)) := f32_nonneg q0
  have Q1 : f32 (f32 (f32 (f32 (v : ℚ) * 1) * f32 (h : ℚ)) / f32 (m : ℚ))
      ≤ 2 ^ (62 : Nat) * (c * c * c * c) / (1 - 1 / 2 ^ (24 : Nat)) * c := f32_le_of_le q0 q1
  have r0 : 0 ≤ f32 (f32 (f32 (f32 (v : ℚ) * 1) * f32 (h : ℚ)) / f32 (m : ℚ)) + 1 / 2 := by
    linarith
  have R1 := f32_le_of_le r0 (add_le_add_right Q1 (1 / 2))
  unfold pixel_len
  refine ⟨f32_nonneg r0, lt_of_le_of_lt R1 ?_⟩
  rw [hcdef]
  norm_num

theorem ftoi_of_bounds {q : ℚ} (h0 : 0 ≤ q) (h1 : q < 2 ^ (63 : Nat)) : ftoi q = some ⌊q⌋ := by
  unfold ftoi
  rw [if_pos h0]
  have hf0 : 0 ≤ ⌊q⌋ := Int.floor_nonneg.2 h0
  have hf1 : ⌊q⌋ < 2 ^ 63 := by
    rw [Int.floor_lt]
    exact_mod_cast h1
  rw [if_pos ⟨by omega, hf1⟩]

theorem land_255 (a : Int) : Int.land a 255 = a % 256 := by
  cases a with
  | ofNat n =>
    show ((Nat.land n 255 : Nat) : Int) = _
    have : Nat.land n 255 = n % 256 := Nat.and_pow_two_sub_one_eq_mod n 8
    rw [this]; simp
  | negSucc m =>
    show ((Nat.ldiff 255 m : Nat) : Int) = _
    have h : Nat.ldiff 255 m = 255 - m % 256 := by
      apply Nat.eq_of_testBit_eq
      intro i
      rw [Nat.testBit_ldiff]
      have h2 : 255 - m % 256 = 2 ^ 8 - (m % 2 ^ 8 + 1) := by omega
      rw [h2, Nat.testBit_two_pow_sub_succ (Nat.mod_lt _ (by norm_num)), Nat.testBit_mod_two_pow]
      have h3 : (255 : Nat) = 2 ^ 8 - 1 := by norm_num
      rw [h3, Nat.testBit_two_pow_sub_one]
      cases decide (i < 8) <;> simp
    rw [h, Int.negSucc_eq]
    omega

theorem reverse_range_map (n : Nat) (g : Nat → Nat) :
    ((List.range n).map (fun j => g (j + 1))).reverse
      = (List.range n).map (fun k => g (n - 1 - k + 1)) := by
  have h : (List.range n).reverse = (List.range n).map (fun k => n - 1 - k) := by
    rw [List.range_eq_range', List.reverse_range']
    simp [List.range_eq_range']
  rw [← List.map_reverse, h, List.map_map]
  rfl

theorem hist_index_eq (wr : Nat) (x : Int) :
    hist_index wr x = (((wr : Int) - x) % 256).toNat := by
  unfold hist_index
  have h : ((HISTMSK : Nat) : Int) = 255 := rfl
  rw [h, land_255]

theorem fired_eq_card (numif : Nat) (seed : Nat → Nat × Nat) (readings : Nat → Nat → Nat × Nat)
    (r : Nat) (hr : r < RESCNT) (m : Nat) :
    fired (periodsN r) m
      = ((Finset.range m).filter
          (fun k => (daemon numif seed readings k).ticks r = 0)).card := by
  have hp := periodsN_isPeriod r hr
  induction m with
  | zero => simp [fired_zero _ hp]
  | succ m ih =>
    rw [fired_succ _ _ hp, Finset.range_succ, Finset.filter_insert, ih]
    by_cases h : m % periodsN r = 0
    · have h2 := (daemon_fires_iff numif seed readings m r hr).2 h
      rw [if_pos h, if_pos h2, Finset.card_insert_of_not_mem]
      simp
    · have h2 : ¬ (daemon numif seed readings m).ticks r = 0 :=
        fun hh => h ((daemon_fires_iff numif seed readings m r hr).1 hh)
      rw [if_neg h, if_neg h2]

/-- C4: in the daemon started on zeroed blocks, after `m` calls of `record` let
`n` be the number of recordings of resolution `r` (the calls whose guard
`ticks[r] == 0` held). Then `wr[r] = n mod 256`; a call advances `wr[r]` by
exactly 1 modulo 256 when `r` fires and leaves it unchanged otherwise; and for
every column offset `k < min(n, 256)` the slot the renderer reads,
`(wr[r] - k) & 255`, holds the delta stored by recording `n - k`. For `n < 256`
reading backward from the cursor for `n` samples yields the stored deltas in
reverse order of insertion. -/
theorem C4_ring_store_roundtrip (numif : Nat) (seed : Nat → Nat × Nat)
    (readings : Nat → Nat → Nat × Nat) (i r m : Nat) (hi : i < numif) (hr : r < RESCNT) :
    (fired (periodsN r) m
      = ((Finset.range m).filter
          (fun k => (daemon numif seed readings k).ticks r = 0)).card) ∧
    (((daemon numif seed readings m).statistics i).wr r = fired (periodsN r) m % 256) ∧
    (((daemon numif seed readings (m + 1)).statistics i).wr r =
      if (daemon numif seed readings m).ticks r = 0 then
        (((daemon numif seed readings m).statistics i).wr r + 1) % 256
      else ((daemon numif seed readings m).statistics i).wr r) ∧
    (∀ k : Nat, k < fired (periodsN r) m → k < 256 →
      ((daemon numif seed readings m).statistics i).rx r
          (hist_index (((daemon numif seed readings m).statistics i).wr r) (k : Int))
        = recorded_rx numif seed readings i r (fired (periodsN r) m - k) ∧
      ((daemon numif seed readings m).statistics i).tx r
          (hist_index (((daemon numif seed readings m).statistics i).wr r) (k : Int))
        = recorded_tx numif seed readings i r (fired (periodsN r) m - k)) ∧
    (fired (periodsN r) m < 256 →
      (List.range (fired (periodsN r) m)).map
          (fun (k : Nat) => ((daemon numif seed readings m).statistics i).rx r
            (hist_index (((daemon numif seed readings m).statistics i).wr r) (k : Int)))
        = ((List.range (fired (periodsN r) m)).map
            (fun j => recorded_rx numif seed readings i r (j + 1))).reverse ∧
      (List.range (fired (periodsN r) m)).map
          (fun (k : Nat) => ((daemon numif seed readings m).statistics i).tx r
            (hist_index (((daemon numif seed readings m).statistics i).wr r) (k : Int)))
        = ((List.range (fired (periodsN r) m)).map
            (fun j => recorded_tx numif seed readings i r (j + 1))).reverse) := by
  obtain ⟨hw, -, -, hs⟩ := daemon_chan_inv numif seed readings i r hi hr m
  simp only [chan] at hw hs
  have hslot : ∀ k : Nat, k < fired (periodsN r) m → k < 256 →
      ((daemon numif seed readings m).statistics i).rx r
          (hist_index (((daemon numif seed readings m).statistics i).wr r) (k : Int))
        = recorded_rx numif seed readings i r (fired (periodsN r) m - k) ∧
      ((daemon numif seed readings m).statistics i).tx r
          (hist_index (((daemon numif seed readings m).statistics i).wr r) (k : Int))
        = recorded_tx numif seed readings i r (fired (periodsN r) m - k) := by
    intro k hk hk2
    have hidx : hist_index (((daemon numif seed readings m).statistics i).wr r) k
        = (fired (periodsN r) m - k) % 256 := by
      rw [hist_index_eq, hw]
      omega
    have he := recorded_eq numif seed readings i r (fired (periodsN r) m - k) hi hr (by omega)
    rw [hidx, he.1, he.2]
    exact hs _ (by omega) (by omega) (by omega)
  refine ⟨fired_eq_card numif seed readings r hr m, hw, ?_, hslot, ?_⟩
  · have h := congrArg Chan.wr (daemon_chan_succ numif seed readings m i r hi hr)
    simp only [chan] at h
    rw [h]
    by_cases hm : m % periodsN r = 0
    · rw [if_pos hm, if_pos ((daemon_fires_iff numif seed readings m r hr).2 hm)]
      rfl
    · have h2 : ¬ (daemon numif seed readings m).ticks r = 0 :=
        fun hh => hm ((daemon_fires_iff numif seed readings m r hr).1 hh)
      rw [if_neg hm, if_neg h2]
  · intro hn
    rw [reverse_range_map, reverse_range_map]
    constructor
    · apply List.map_congr_left
      intro k hk
      rw [List.mem_range] at hk
      rw [(hslot k hk (by omega)).1]
      congr 1
      omega
    · apply List.map_congr_left
      intro k hk
      rw [List.mem_range] at hk
      rw [(hslot k hk (by omega)).2]
      congr 1
      omega

/-- C4 after 200 calls at the second resolution: the write index is 200, and the
slot read for column offset 3 holds the delta stored by recording 197. -/
theorem C4_ring_store_roundtrip_witness :
    ((daemon 1 ramp_seed ramp_readings 200).statistics 0).wr 0 = fired (periodsN 0) 200 % 256 ∧
    ((daemon 1 ramp_seed ramp_readings 200).statistics 0).rx 0
        (hist_index (((daemon 1 ramp_seed ramp_readings 200).statistics 0).wr 0) ((3 : Nat) : Int))
      = recorded_rx 1 ramp_seed ramp_readings 0 0 (fired (periodsN 0) 200 - 3) := by
  have h := C4_ring_store_roundtrip 1 ramp_seed ramp_readings 0 0 200 (by decide) (by decide)
  exact ⟨h.2.1, (h.2.2.2.1 3 (by decide) (by decide)).1⟩

set_option maxRecDepth 100000 in
theorem axisscales_table :
    ∀ i, i < 70 → axisscales i = scalebasis.getD (i % 7) 0 * 10 ^ (i / 7) := by
  decide

set_option maxRecDepth 100000 in
theorem axisscales_steps :
    ∀ i, i < 70 → 1 ≤ i →
      axisscales (i - 1) < axisscales i ∧ axisscales i < 2 * axisscales (i - 1) := by
  decide

set_option maxRecDepth 100000 in
theorem axisscales_bound : ∀ i, i < 70 → 1 ≤ axisscales i ∧ axisscales i ≤ 100000000000 := by
  decide

theorem periodsN_bound (res : Nat) (hres : res < RESCNT) :
    1 ≤ periodsN res ∧ periodsN res ≤ 86400 ∧ u64_of_int (periods res) = periodsN res := by
  unfold RESCNT at hres
  interval_cases res <;> decide

theorem scale_max_eq (idx res : Nat) (hidx : idx < NUMAXISSCALES) (hres : res < RESCNT) :
    scale_max idx res = axisscales idx * periodsN res := by
  have hb := axisscales_bound idx hidx
  have hp := periodsN_bound res hres
  unfold scale_max mul64
  rw [hp.2.2]
  apply Nat.mod_eq_of_lt
  have h := Nat.mul_le_mul hb.2 hp.2.1
  unfold U64
  omega

/-- C8: the table built by `prepare_drawing` has 70 entries,
`axisscales[7*o + j] = scalebasis[j] * 10^o` for `o` in 0..9 and `j` in 0..6, from
15 up to `10^11`; it is strictly increasing and every step is smaller than a
doubling. Hence, if every column total is at most half of
`axisscales[i] * period`, every column total is strictly below
`axisscales[i-1] * period`, the scale maximum at the sharpened index. -/
theorem C8_axisscales_steps_below_doubling :
    (prepare_drawing.writer = NUMAXISSCALES ∧ NUMAXISSCALES = 70) ∧
    (∀ o j, o < 10 → j < 7 → axisscales (7 * o + j) = scalebasis.getD j 0 * 10 ^ o) ∧
    (axisscales 0 = 15 ∧ axisscales 69 = 10 ^ 11) ∧
    (∀ i, 1 ≤ i → i ≤ 69 →
      axisscales (i - 1) < axisscales i ∧ axisscales i < 2 * axisscales (i - 1)) ∧
    (∀ i res total, 1 ≤ i → i ≤ 69 → res < RESCNT →
      2 * total ≤ scale_max i res → total < scale_max (i - 1) res) := by
  refine ⟨by decide, ?_, by decide, ?_, ?_⟩
  · intro o j ho hj
    have h := axisscales_table (7 * o + j) (by omega)
    have h1 : (7 * o + j) % 7 = j := by omega
    have h2 : (7 * o + j) / 7 = o := by omega
    rw [h1, h2] at h
    exact h
  · intro i h1 h2
    exact axisscales_steps i (by omega) h1
  · intro i res total h1 h2 hres htot
    have hs := axisscales_steps i (by omega) h1
    have hp := periodsN_bound res hres
    have hN : NUMAXISSCALES = 70 := by decide
    rw [scale_max_eq i res (by omega) hres] at htot
    rw [scale_max_eq (i - 1) res (by omega) hres]
    have h3 : axisscales i * periodsN res < 2 * axisscales (i - 1) * periodsN res :=
      Nat.mul_lt_mul_of_pos_right hs.2 (by omega)
    have h4 : 2 * axisscales (i - 1) * periodsN res = 2 * (axisscales (i - 1) * periodsN res) :=
      Nat.mul_assoc _ _ _
    omega

/-- C8 at index 16 of the second resolution: a total of 1500, half of the
maximum 3000, is below the maximum 2000 of index 15. -/
theorem C8_axisscales_steps_below_doubling_witness :
    2 * 1500 ≤ scale_max 16 0 ∧ 1500 < scale_max (16 - 1) 0 :=
  ⟨by decide,
    C8_axisscales_steps_below_doubling.2.2.2.2 16 0 1500 (by decide) (by decide) (by decide)
      (by decide)⟩

/-- C9, as stated, fails: the usage error (an argument was given) and the failure
to open the directory both end `main` with exit status 1, so these two of the
three start-up failures are not told apart by their status. -/
theorem C9_exit_status_counterexample :
    main env_with_argument = some 1 ∧ main env_without_directory = some 1 ∧
    main env_with_argument = main env_without_directory := by
  decide

/-- C9, amended: an invocation with any argument exits with status 1; without
arguments, a failure to open the directory also exits with status 1; without
arguments and with the directory read without error, zero attached shared
blocks exit with status 3, which differs from the status of the other two. -/
theorem C9_exit_status_amended (env : Env) :
    (env.argc ≠ 1 → main env = some 1) ∧
    (env.argc = 1 → env.opendir_ok = false → main env = some 1) ∧
    (∀ cands, env.argc = 1 → env.opendir_ok = true →
      read_candidates env.readdir [] = .ok cands → (attach env cands).length = 0 →
      main env = some 3) ∧
    ((3 : Int) ≠ 1) := by
  refine ⟨?_, ?_, ?_, by decide⟩
  · intro h
    simp [main, h]
  · intro h1 h2
    simp [main, h1, h2]
  · intro cands h1 h2 h3 h4
    simp [main, h1, h2, h3, h4]

/-- C9 (amended) at concrete invocations: an argument gives status 1, no shared
block gives status 3. -/
theorem C9_exit_status_amended_witness :
    main env_with_argument = some 1 ∧ main env_without_daemon = some 3 :=
  ⟨(C9_exit_status_amended env_with_argument).1 (by decide),
    (C9_exit_status_amended env_without_daemon).2.2.1 ["eth0"] (by decide) (by decide)
      rfl (by decide)⟩

/-! ### The loops of `draw_samples` -/

theorem draw_range_some (maxbw fr to_ y0 y1 v : Int) (h : draw_range maxbw fr to_ y0 y1 = some v) :
    (v = 0 ∨ v = 1) ∧
    (v ≠ 0 ↔ ∃ l1, ftoi (pixel_len to_ (y1 - y0) maxbw) = some l1 ∧ l1 ≥ (y1 - y0) - 1) := by
  unfold draw_range at h
  split at h
  · split at h
    · rename_i a l1 h0 h1
      simp only [Option.some.injEq] at h
      by_cases hl : l1 ≥ y1 - y0 - 1
      · rw [if_pos hl] at h
        subst h
        exact ⟨Or.inr rfl, fun _ => ⟨l1, h1, hl⟩, fun _ => by decide⟩
      · rw [if_neg hl] at h
        subst h
        refine ⟨Or.inl rfl, fun h => absurd rfl h, ?_⟩
        rintro ⟨l, hl1, hl2⟩
        rw [h1] at hl1
        simp only [Option.some.injEq] at hl1
        subst hl1
        exact absurd hl2 hl
    · simp at h
  · simp at h

theorem draw_if_some (f : Frame) (res maxval : Nat) (y0 y1 : Int) (x : Nat) (o u : Int)
    (k : Nat) (o1 u1 : Int) (c1 : Nat)
    (h : draw_if f res maxval y0 y1 x (o, u, running_total f res x k) k = some (o1, u1, c1)) :
    c1 = running_total f res x (k + 1) ∧
    u1 = (if running_total f res x (k + 1) > maxval / 2 then 0 else u) ∧
    o ≤ o1 ∧
    (o1 ≠ o ↔ reaches_top maxval (segment_tx f res x k) y0 y1 ∨
      reaches_top maxval (segment_rx f res x k) y0 y1) := by
  unfold draw_if at h
  simp only at h
  split at h
  · rename_i b1 b2 h1 h2
    simp only [Option.some.injEq, Prod.mk.injEq] at h
    obtain ⟨ho, hu, hc⟩ := h
    have r1 := draw_range_some _ _ _ _ _ _ h1
    have r2 := draw_range_some _ _ _ _ _ _ h2
    refine ⟨hc.symm, hu.symm, ?_, ?_⟩
    · rcases r1.1 with e1 | e1 <;> rcases r2.1 with e2 | e2 <;> omega
    · have t1 : b1 ≠ 0 ↔ reaches_top maxval (segment_tx f res x k) y0 y1 := r1.2
      have t2 : b2 ≠ 0 ↔ reaches_top maxval (segment_rx f res x k) y0 y1 := r2.2
      rw [← t1, ← t2]
      rcases r1.1 with e1 | e1 <;> rcases r2.1 with e2 | e2 <;> omega
  · simp at h

theorem foldlM_range_succ {σ : Type} (g : σ → Nat → Option σ) (a : σ) (n : Nat) :
    (List.range (n + 1)).foldlM g a = ((List.range n).foldlM g a).bind (fun b => g b n) := by
  rw [List.range_succ, List.foldlM_append]
  congr 1
  funext b
  simp [List.foldlM]

theorem draw_inner_some (f : Frame) (res maxval : Nat) (y0 y1 : Int) (x : Nat) (o u : Int)
    (n : Nat) (o1 u1 : Int) (c1 : Nat)
    (h : (List.range n).foldlM (draw_if f res maxval y0 y1 x) (o, u, 0) = some (o1, u1, c1)) :
    c1 = running_total f res x n ∧
    (u1 ≠ 0 ↔ u ≠ 0 ∧ ∀ j, j < n → running_total f res x (j + 1) ≤ maxval / 2) ∧
    o ≤ o1 ∧
    (o1 ≠ o ↔ ∃ j, j < n ∧ (reaches_top maxval (segment_tx f res x j) y0 y1 ∨
      reaches_top maxval (segment_rx f res x j) y0 y1)) := by
  induction n generalizing o1 u1 c1 with
  | zero =>
    simp only [List.range_zero, List.foldlM, pure, Option.some.injEq, Prod.mk.injEq] at h
    obtain ⟨ho, hu, hc⟩ := h
    subst ho hu hc
    refine ⟨rfl, ?_, le_refl _, ?_⟩
    · simp
    · simp
  | succ n ih =>
    rw [foldlM_range_succ] at h
    obtain ⟨⟨o2, u2, c2⟩, h2, h3⟩ := Option.bind_eq_some.1 h
    obtain ⟨hc, hu, ho, ht⟩ := ih o2 u2 c2 h2
    subst hc
    obtain ⟨kc, ku, ko, kt⟩ := draw_if_some f res maxval y0 y1 x o2 u2 n o1 u1 c1 h3
    refine ⟨kc, ?_, le_trans ho ko, ?_⟩
    · rw [ku]
      constructor
      · intro hne
        by_cases hgt : running_total f res x (n + 1) > maxval / 2
        · rw [if_pos hgt] at hne
          exact absurd rfl hne
        · rw [if_neg hgt] at hne
          have h4 := hu.1 hne
          refine ⟨h4.1, ?_⟩
          intro j hj
          rcases Nat.lt_succ_iff_lt_or_eq.1 hj with hj1 | hj1
          · exact h4.2 j hj1
          · subst hj1
            omega
      · rintro ⟨hu0, hall⟩
        have hle := hall n (Nat.lt_succ_self n)
        rw [if_neg (by omega)]
        exact hu.2 ⟨hu0, fun j hj => hall j (Nat.lt_succ_of_lt hj)⟩
    · constructor
      · intro hne
        by_cases h5 : o2 = o
        · subst h5
          exact ⟨n, Nat.lt_succ_self n, kt.1 hne⟩
        · obtain ⟨j, hj, hjt⟩ := ht.1 h5
          exact ⟨j, Nat.lt_succ_of_lt hj, hjt⟩
      · rintro ⟨j, hj, hjt⟩
        rcases Nat.lt_succ_iff_lt_or_eq.1 hj with hj1 | hj1
        · have := ht.2 ⟨j, hj1, hjt⟩
          omega
        · subst hj1
          have := kt.2 hjt
          omega

theorem draw_column_some (f : Frame) (res maxval : Nat) (y0 y1 : Int) (o u : Int) (x : Nat)
    (o1 u1 : Int) (h : draw_column f res maxval y0 y1 (o, u) x = some (o1, u1)) :
    (u1 ≠ 0 ↔ u ≠ 0 ∧ ∀ j, j < f.numif → running_total f res x (j + 1) ≤ maxval / 2) ∧
    o ≤ o1 ∧
    (o1 ≠ o ↔ ∃ j, j < f.numif ∧ (reaches_top maxval (segment_tx f res x j) y0 y1 ∨
      reaches_top maxval (segment_rx f res x j) y0 y1)) := by
  unfold draw_column at h
  split at h
  · rename_i r hr
    obtain ⟨r1, r2, r3⟩ := r
    simp only [Option.some.injEq, Prod.mk.injEq] at h
    obtain ⟨h1, h2⟩ := h
    subst h1 h2
    exact (draw_inner_some f res maxval y0 y1 x o u f.numif r1 r2 r3 hr).2
  · simp at h

theorem draw_outer_some (f : Frame) (res maxval : Nat) (y0 y1 : Int) (w : Nat) (o u : Int)
    (h : (List.range w).foldlM (draw_column f res maxval y0 y1) (0, 1) = some (o, u)) :
    (u ≠ 0 ↔ ∀ x, x < w → ∀ j, j < f.numif → running_total f res x (j + 1) ≤ maxval / 2) ∧
    0 ≤ o ∧
    (o ≠ 0 ↔ ∃ x, x < w ∧ ∃ j, j < f.numif ∧
      (reaches_top maxval (segment_tx f res x j) y0 y1 ∨
        reaches_top maxval (segment_rx f res x j) y0 y1)) := by
  induction w generalizing o u with
  | zero =>
    simp only [List.range_zero, List.foldlM, pure, Option.some.injEq, Prod.mk.injEq] at h
    obtain ⟨ho, hu⟩ := h
    subst ho hu
    simp
  | succ w ih =>
    rw [foldlM_range_succ] at h
    obtain ⟨⟨o2, u2⟩, h2, h3⟩ := Option.bind_eq_some.1 h
    obtain ⟨hu, ho, ht⟩ := ih o2 u2 h2
    obtain ⟨ku, ko, kt⟩ := draw_column_some f res maxval y0 y1 o2 u2 w o u h3
    refine ⟨?_, le_trans ho ko, ?_⟩
    · rw [ku, hu]
      constructor
      · rintro ⟨h4, h5⟩ x hx
        rcases Nat.lt_succ_iff_lt_or_eq.1 hx with hx1 | hx1
        · exact h4 x hx1
        · subst hx1
          exact h5
      · intro h4
        exact ⟨fun x hx => h4 x (Nat.lt_succ_of_lt hx), h4 w (Nat.lt_succ_self w)⟩
    · constructor
      · intro hne
        by_cases h5 : o2 = 0
        · subst h5
          exact ⟨w, Nat.lt_succ_self w, kt.1 hne⟩
        · obtain ⟨x, hx, hxt⟩ := ht.1 h5
          exact ⟨x, Nat.lt_succ_of_lt hx, hxt⟩
      · rintro ⟨x, hx, hxt⟩
        rcases Nat.lt_succ_iff_lt_or_eq.1 hx with hx1 | hx1
        · have := ht.2 ⟨x, hx1, hxt⟩
          omega
        · subst hx1
          have := kt.2 hxt
          omega

theorem running_total_eq (f : Frame) (res x k : Nat) :
    running_total f res x k
      = (∑ i in Finset.range k, (sample_tx f res x i + sample_rx f res x i)) % U64 := by
  induction k with
  | zero => simp [running_total]
  | succ k ih =>
    rw [running_total, ih, Finset.sum_range_succ]
    unfold add64 U64
    omega

theorem partial_le_column_total (f : Frame) (res x k : Nat) (hk : k ≤ f.numif) :
    (∑ i in Finset.range k, (sample_tx f res x i + sample_rx f res x i)) ≤ column_total f res x := by
  unfold column_total
  apply Finset.sum_le_sum_of_subset
  intro a ha
  rw [Finset.mem_range] at ha ⊢
  omega

theorem running_total_exact (f : Frame) (res x k : Nat) (hk : k ≤ f.numif)
    (h : column_total f res x < U64) :
    running_total f res x k
      = ∑ i in Finset.range k, (sample_tx f res x i + sample_rx f res x i) := by
  rw [running_total_eq]
  exact Nat.mod_eq_of_lt (lt_of_le_of_lt (partial_le_column_total f res x k hk) h)

theorem running_le_iff_total_le (f : Frame) (res x m : Nat) (h : column_total f res x < U64) :
    (∀ j, j < f.numif → running_total f res x (j + 1) ≤ m) ↔ column_total f res x ≤ m := by
  constructor
  · intro hall
    rcases Nat.eq_zero_or_pos f.numif with h0 | h0
    · unfold column_total
      rw [h0]
      simp
    · have h1 := hall (f.numif - 1) (by omega)
      have h2 : f.numif - 1 + 1 = f.numif := by omega
      rw [h2, running_total_exact f res x f.numif (le_refl _) h] at h1
      exact h1
  · intro hle j hj
    rw [running_total_exact f res x (j + 1) hj h]
    exact le_trans (partial_le_column_total f res x (j + 1) hj) hle

/-- C7: when the loops of `draw_samples` complete at scale index `idx` and
resolution `res`, with `maxval = axisscales[idx] * periods[res]`, the underflow
flag is still set if and only if in every visible column, after every interface,
the running stacked total `cumul` is at most `maxval / 2` with truncating
division; the comparison `cumul > maxval / 2` decides exactly that the total
exceeds half of `maxval` (also for odd `maxval`); and when no column total
exceeds `2^64 - 1`, the flag is set if and only if no column's full stacked
total exceeds half of the scale maximum. -/
theorem C7_underflow_flag (f : Frame) (res idx : Nat) (y0 y1 o u : Int)
    (hidx : idx < NUMAXISSCALES) (hres : res < RESCNT)
    (h : draw_scan f res (scale_max idx res) y0 y1 = some (o, u)) :
    (scale_max idx res = axisscales idx * periodsN res) ∧
    (u ≠ 0 ↔ ∀ x, x < columns f → ∀ j, j < f.numif →
      running_total f res x (j + 1) ≤ scale_max idx res / 2) ∧
    (∀ c : Nat, c > scale_max idx res / 2 ↔ 2 * c > scale_max idx res) ∧
    ((∀ x, x < columns f → column_total f res x < U64) →
      (u ≠ 0 ↔ ∀ x, x < columns f → 2 * column_total f res x ≤ scale_max idx res)) := by
  have hu := (draw_outer_some f res (scale_max idx res) y0 y1 (columns f) o u h).1
  refine ⟨scale_max_eq idx res hidx hres, hu, fun c => by omega, ?_⟩
  intro hnw
  rw [hu]
  constructor
  · intro hall x hx
    have := (running_le_iff_total_le f res x (scale_max idx res / 2) (hnw x hx)).1 (hall x hx)
    omega
  · intro hall x hx
    exact (running_le_iff_total_le f res x (scale_max idx res / 2) (hnw x hx)).2
      (by have := hall x hx; omega)

/-- The closed form of `scale_step` on valid indices. -/
theorem scale_step_eq (o u i : Int) (h0 : 0 ≤ i) (h1 : i ≤ 69) :
    scale_step o u i
      = if o ≠ 0 then min (i + 1) 69 else if u ≠ 0 then max (i - 1) 0 else i := by
  have hN : ((NUMAXISSCALES : Nat) : Int) = 70 := rfl
  unfold scale_step
  rw [hN]
  split
  · split <;> omega
  · split
    · split <;> omega
    · rfl

theorem scale_step_overflow_iter (flags : List (Int × Int)) (hall : ∀ p ∈ flags, p.1 ≠ 0)
    (i : Int) (h0 : 0 ≤ i) (h1 : i ≤ 69) :
    flags.foldl (fun j p => scale_step p.1 p.2 j) i = min (i + flags.length) 69 := by
  induction flags generalizing i with
  | nil => simp; omega
  | cons p ps ih =>
    have hp : p.1 ≠ 0 := hall p (List.mem_cons_self _ _)
    rw [List.foldl_cons, scale_step_eq _ _ _ h0 h1, if_pos hp,
      ih (fun q hq => hall q (List.mem_cons_of_mem _ hq)) _ (by omega) (by omega)]
    simp only [List.length_cons, Nat.cast_add, Nat.cast_one]
    omega

theorem scale_step_underflow_iter (flags : List (Int × Int))
    (hall : ∀ p ∈ flags, p.1 = 0 ∧ p.2 ≠ 0) (i : Int) (h0 : 0 ≤ i) (h1 : i ≤ 69) :
    flags.foldl (fun j p => scale_step p.1 p.2 j) i = max (i - flags.length) 0 := by
  induction flags generalizing i with
  | nil => simp; omega
  | cons p ps ih =>
    have hp := hall p (List.mem_cons_self _ _)
    rw [List.foldl_cons, scale_step_eq _ _ _ h0 h1, if_neg (by simp [hp.1]), if_pos hp.2,
      ih (fun q hq => hall q (List.mem_cons_of_mem _ hq)) _ (by omega) (by omega)]
    simp only [List.length_cons, Nat.cast_add, Nat.cast_one]
    omega

/-- C5: when `draw_samples` completes on a frame with current index `i` in
`0..69`, the loops yielded flags `(overflow, underflow)` and the new index of
the drawn resolution is `min(i+1, 69)` if the frame overflowed, otherwise
`max(i-1, 0)` if it underflowed, otherwise `i`; the other resolutions keep their
index. So the index stays in `0..69` (it starts at 15) and moves by at most one
step in one direction per frame; over `n` frames that all overflow it becomes
`min(i+n, 69)`, and over `n` frames that all underflow without overflow it
becomes `max(i-n, 0)`. -/
theorem C5_scale_index_transition :
    (∀ r, r < RESCNT → initial_y_scale_indices r = 15) ∧
    (∀ (f : Frame) (ysi ysi1 : Nat → Int) (res : Nat) (y0 y1 : Int),
      draw_samples f ysi res y0 y1 = some ysi1 →
      ∃ o u, draw_scan f res (scale_max (ysi res).toNat res) y0 y1 = some (o, u) ∧
        (0 ≤ ysi res ∧ ysi res ≤ 69) ∧
        ysi1 res = (if o ≠ 0 then min (ysi res + 1) 69
          else if u ≠ 0 then max (ysi res - 1) 0 else ysi res) ∧
        (0 ≤ ysi1 res ∧ ysi1 res ≤ 69) ∧
        (ysi res - 1 ≤ ysi1 res ∧ ysi1 res ≤ ysi res + 1) ∧
        (∀ r, r ≠ res → ysi1 r = ysi r)) ∧
    (∀ (flags : List (Int × Int)) (i : Int), 0 ≤ i → i ≤ 69 → (∀ p ∈ flags, p.1 ≠ 0) →
      flags.foldl (fun j p => scale_step p.1 p.2 j) i = min (i + flags.length) 69) ∧
    (∀ (flags : List (Int × Int)) (i : Int), 0 ≤ i → i ≤ 69 →
      (∀ p ∈ flags, p.1 = 0 ∧ p.2 ≠ 0) →
      flags.foldl (fun j p => scale_step p.1 p.2 j) i = max (i - flags.length) 0) := by
  refine ⟨?_, ?_, ?_, ?_⟩
  · intro r hr
    simp [initial_y_scale_indices, hr]
  · intro f ysi ysi1 res y0 y1 h
    unfold draw_samples at h
    have hN : ((NUMAXISSCALES : Nat) : Int) = 70 := rfl
    split at h
    · split at h
      · rename_i hrange
        rw [hN] at hrange
        split at h
        · rename_i o u hscan
          simp only [Option.some.injEq] at h
          subst h
          have hstep := scale_step_eq o u (ysi res) hrange.1 (by omega)
          refine ⟨o, u, hscan, ⟨hrange.1, by omega⟩, ?_, ?_, ?_, ?_⟩
          · simp only [set1, if_true]
            exact hstep
          · simp only [set1, if_true]
            rw [hstep]
            split
            · omega
            · split <;> omega
          · simp only [set1, if_true]
            rw [hstep]
            split
            · omega
            · split <;> omega
          · intro r hr
            simp [set1, hr]
        · simp at h
      · simp at h
    · simp at h
  · intro flags i h0 h1 hall
    exact scale_step_overflow_iter flags hall i h0 h1
  · intro flags i h0 h1 hall
    exact scale_step_underflow_iter flags hall i h0 h1

/-! ### `draw_samples` runs through on drawable frames -/

theorem to_i64_small (n : Nat) (h : n < 2 ^ 63) : to_i64 n = (n : Int) := by
  unfold to_i64 U64
  have h1 : n % 2 ^ 64 = n := Nat.mod_eq_of_lt (by omega)
  rw [h1, if_pos h]

theorem draw_range_defined (m fr to_ y0 y1 : Int) (hm : 0 < m) (hfr : 0 ≤ fr) (hto : fr ≤ to_)
    (hy : y0 ≤ y1) (hb : to_ * (y1 - y0) ≤ 2 ^ 62 * m) :
    ∃ v, draw_range m fr to_ y0 y1 = some v := by
  have hh : 0 ≤ y1 - y0 := by omega
  have hb0 : fr * (y1 - y0) ≤ 2 ^ 62 * m :=
    le_trans (Int.mul_le_mul_of_nonneg_right hto hh) hb
  have b0 := pixel_len_bounds fr (y1 - y0) m hfr hh hm hb0
  have b1 := pixel_len_bounds to_ (y1 - y0) m (le_trans hfr hto) hh hm hb
  have e0 := ftoi_of_bounds b0.1 b0.2
  have e1 := ftoi_of_bounds b1.1 b1.2
  unfold draw_range
  rw [if_pos ⟨hfr, le_trans hfr hto, hto, by omega⟩, e0, e1]
  exact ⟨_, rfl⟩

theorem draw_if_defined (f : Frame) (res maxval : Nat) (y0 y1 : Int) (x : Nat) (o u : Int)
    (k : Nat) (hd : Drawable f res maxval y0 y1) (hx : x < columns f) (hk : k < f.numif) :
    ∃ r, draw_if f res maxval y0 y1 x (o, u, running_total f res x k) k = some r := by
  obtain ⟨hy, hm0, hm1, hcol⟩ := hd
  obtain ⟨ht, hpix⟩ := hcol x hx
  have hU : column_total f res x < U64 := by unfold U64; omega
  have hP0 := running_total_exact f res x k (by omega) hU
  have hP1 := partial_le_column_total f res x (k + 1) (by omega)
  rw [Finset.sum_range_succ] at hP1
  have hc : running_total f res x k < 2 ^ 63 := by omega
  have e0 : add64 (running_total f res x k) 0 = running_total f res x k := by
    unfold add64 U64; omega
  have e1 : add64 (running_total f res x k) (sample_tx f res x k)
      = running_total f res x k + sample_tx f res x k := by
    unfold add64 U64; omega
  have e2 : add64 (add64 (running_total f res x k) (sample_tx f res x k)) (sample_rx f res x k)
      = running_total f res x k + sample_tx f res x k + sample_rx f res x k := by
    rw [e1]; unfold add64 U64; omega
  have hH : 0 ≤ y1 - y0 := by omega
  have hmono : ∀ a : Nat, a ≤ column_total f res x →
      (a : Int) * (y1 - y0) ≤ 2 ^ 62 * (maxval : Int) := by
    intro a ha
    exact le_trans (Int.mul_le_mul_of_nonneg_right (by exact_mod_cast ha) hH) hpix
  obtain ⟨v1, hv1⟩ := draw_range_defined (maxval : Int) (running_total f res x k : Nat)
    ((running_total f res x k + sample_tx f res x k : Nat) : Int) y0 y1
    (by exact_mod_cast hm0) (by positivity) (by push_cast; omega) hy (hmono _ (by omega))
  obtain ⟨v2, hv2⟩ := draw_range_defined (maxval : Int)
    ((running_total f res x k + sample_tx f res x k : Nat) : Int)
    ((running_total f res x k + sample_tx f res x k + sample_rx f res x k : Nat) : Int) y0 y1
    (by exact_mod_cast hm0) (by positivity) (by push_cast; omega) hy (hmono _ (by omega))
  have hs1 : draw_range (to_i64 maxval) (to_i64 (add64 (running_total f res x k) 0))
      (to_i64 (add64 (running_total f res x k) (sample_tx f res x k))) y0 y1 = some v1 := by
    rw [e0, e1, to_i64_small _ hm1, to_i64_small _ hc, to_i64_small _ (by omega)]
    exact hv1
  have hs2 : draw_range (to_i64 maxval)
      (to_i64 (add64 (running_total f res x k) (sample_tx f res x k)))
      (to_i64 (add64 (add64 (running_total f res x k) (sample_tx f res x k))
        (sample_rx f res x k))) y0 y1 = some v2 := by
    rw [e2, e1, to_i64_small _ hm1, to_i64_small _ (by omega), to_i64_small _ (by omega)]
    exact hv2
  have hs1' : draw_range (to_i64 maxval)
      (to_i64 (add64 (running_total f res x k) 0))
      (to_i64 (add64 (running_total f res x k)
        ((f.statistics k).tx res (hist_index ((f.statistics k).wr res) (x : Int)) % U64)))
      y0 y1 = some v1 := hs1
  have hs2' : draw_range (to_i64 maxval)
      (to_i64 (add64 (running_total f res x k)
        ((f.statistics k).tx res (hist_index ((f.statistics k).wr res) (x : Int)) % U64)))
      (to_i64 (add64 (add64 (running_total f res x k)
        ((f.statistics k).tx res (hist_index ((f.statistics k).wr res) (x : Int)) % U64))
        ((f.statistics k).rx res (hist_index ((f.statistics k).wr res) (x : Int)) % U64)))
      y0 y1 = some v2 := hs2
  unfold draw_if
  simp only [hs1', hs2']
  exact ⟨_, rfl⟩

theorem draw_inner_defined (f : Frame) (res maxval : Nat) (y0 y1 : Int) (x : Nat) (o u : Int)
    (hd : Drawable f res maxval y0 y1) (hx : x < columns f) (n : Nat) (hn : n ≤ f.numif) :
    ∃ o1 u1, (List.range n).foldlM (draw_if f res maxval y0 y1 x) (o, u, 0)
      = some (o1, u1, running_total f res x n) := by
  induction n with
  | zero => exact ⟨o, u, rfl⟩
  | succ n ih =>
    obtain ⟨o1, u1, h1⟩ := ih (by omega)
    obtain ⟨⟨o2, u2, c2⟩, h2⟩ := draw_if_defined f res maxval y0 y1 x o1 u1 n hd hx (by omega)
    have hc := (draw_if_some f res maxval y0 y1 x o1 u1 n o2 u2 c2 h2).1
    subst hc
    refine ⟨o2, u2, ?_⟩
    rw [foldlM_range_succ, h1]
    exact h2

theorem draw_column_defined (f : Frame) (res maxval : Nat) (y0 y1 : Int) (x : Nat) (o u : Int)
    (hd : Drawable f res maxval y0 y1) (hx : x < columns f) :
    ∃ r, draw_column f res maxval y0 y1 (o, u) x = some r := by
  obtain ⟨o1, u1, h⟩ := draw_inner_defined f res maxval y0 y1 x o u hd hx f.numif (le_refl _)
  unfold draw_column
  simp only [h]
  exact ⟨_, rfl⟩

theorem draw_outer_defined (f : Frame) (res maxval : Nat) (y0 y1 : Int)
    (hd : Drawable f res maxval y0 y1) (w : Nat) (hw : w ≤ columns f) :
    ∃ r, (List.range w).foldlM (draw_column f res maxval y0 y1) (0, 1) = some r := by
  induction w with
  | zero => exact ⟨(0, 1), rfl⟩
  | succ w ih =>
    obtain ⟨⟨o1, u1⟩, h1⟩ := ih (by omega)
    obtain ⟨r, h2⟩ := draw_column_defined f res maxval y0 y1 w o1 u1 hd (by omega)
    refine ⟨r, ?_⟩
    rw [foldlM_range_succ, h1]
    exact h2

theorem draw_scan_defined (f : Frame) (res maxval : Nat) (y0 y1 : Int)
    (hd : Drawable f res maxval y0 y1) :
    ∃ o u, draw_scan f res maxval y0 y1 = some (o, u) := by
  obtain ⟨⟨o, u⟩, h⟩ := draw_outer_defined f res maxval y0 y1 hd (columns f) (le_refl _)
  exact ⟨o, u, h⟩

end Ifgraph
